import Mathlib

/-!
# awsarn: parsing, serialising and comparing AWS ARNs

A shallow embedding of `awsarn.go` (package `awsarn`) and of the parts of the Go
standard library it calls (`strings.SplitN`, `strings.Count`, `strings.Contains`,
`strings.Replace`, `strings.Join`, `regexp.QuoteMeta`, `regexp.MustCompile`,
`(*Regexp).MatchString`).

Modelling conventions.

* A Go `string` is modelled twice.  `Str`, the list of its Unicode code points,
  holds the strings that are valid UTF-8; the statements about parsing, serialising
  and matching are made on it.  All separators the code searches for (`:`, `/`,
  `$\x7b`, `\*`, `\?`) are ASCII, for which byte-wise and code-point-wise search
  coincide.  `Raw.GoString`, the list of its bytes, holds every Go string; the code
  is read on it a second time (namespace `Raw`) to evaluate it where the text is not
  valid UTF-8, which `Parse` accepts and `regexp.MustCompile` refuses.
* A Go `error` result is `Option GoError` (`none` is `nil`).
* A run-time panic (index out of range, `regexp.MustCompile` on a rejected
  pattern) is the outer `none` of an `Option` result.
* Package `regexp` also refuses patterns beyond a size limit ("expression too
  large", reached by a field of a few million wildcards).  That limit is not
  modelled: on both string types `MustCompile` accepts a pattern of any length.
-/

namespace Awsarn

/-- A Go string, as the list of its code points. -/
abbrev Str := List Char

/-! ## Package `strings`

The functions of this package compare elements only, so they are written once for
any element type: code points for `Str`, bytes for `Raw.GoString`. -/

namespace strings

variable {α : Type} [DecidableEq α]

/-- Go `strings.HasPrefix(s, p)`: does `s` begin with `p`. -/
def startsWith : List α → List α → Bool
  | _, [] => true
  | [], _ :: _ => false
  | c :: s, d :: p => decide (c = d) && startsWith s p

/-- Go `strings.Index(s, substr)`: the index of the first instance of `substr` in
`s`; `none` stands for Go's `-1`. -/
def Index : List α → List α → Option Nat
  | [], substr => if substr = [] then some 0 else none
  | c :: s, substr =>
    if startsWith (c :: s) substr then some 0 else (Index s substr).map (· + 1)

/-- Go `strings.Contains(s, substr)`, which is `Index(s, substr) >= 0`. -/
def Contains (s substr : List α) : Bool := (Index s substr).isSome

/-- The loop of Go `strings.Count` for a non-empty `substr`:
`for { i := Index(s, substr); if i == -1 { return n }; n++; s = s[i+len(substr):] }`.
The first argument bounds the number of iterations. -/
def countLoop (substr : List α) : Nat → List α → Nat
  | 0, _ => 0
  | fuel + 1, s =>
    match Index s substr with
    | none => 0
    | some i => 1 + countLoop substr fuel (s.drop (i + substr.length))

/-- Go `strings.Count(s, substr)` for a non-empty `substr`: the number of
non-overlapping instances of `substr` in `s`.  Every iteration of the loop removes
at least one character, so `s.length` iterations always suffice
(see `countLoop_fuel`). -/
def Count (s substr : List α) : Nat := countLoop substr s.length s

/-- The loop of Go `strings.genSplit(s, sep, 0, n)` for a non-empty `sep` and
`n > 0`: `n - 1` times cut `s` at the first instance of `sep`, then keep the rest
unsplit. -/
def splitLoop (sep : List α) : Nat → List α → List (List α)
  | 0, _ => []
  | 1, s => [s]
  | n + 2, s =>
    match Index s sep with
    | none => [s]
    | some m => s.take m :: splitLoop sep (n + 1) (s.drop (m + sep.length))

/-- Go `strings.SplitN(s, sep, n)` for a non-empty `sep` and `n ≥ 0`: at most `n`
substrings, the last one being the unsplit remainder (`n = 0` gives `nil`). -/
def SplitN (s sep : List α) (n : Nat) : List (List α) := splitLoop sep n s

/-- Go `strings.Join(elems, sep)`. -/
def Join : List (List α) → List α → List α
  | [], _ => []
  | [a], _ => a
  | a :: b :: rest, sep => a ++ sep ++ Join (b :: rest) sep

/-- The replacement loop of Go `strings.Replace` for a non-empty `old`: `n` times
copy the text before the next instance of `old`, write `new`, and skip `old`;
finally copy what is left. -/
def replaceLoop (old new : List α) : Nat → List α → List α
  | 0, s => s
  | n + 1, s =>
    match Index s old with
    | none => s
    | some j => s.take j ++ new ++ replaceLoop old new n (s.drop (j + old.length))

/-- Go `strings.Replace(s, old, new, -1)` for a non-empty `old`: all
non-overlapping instances of `old` replaced by `new`.  As in Go, the number of
replacements is `Count(s, old)`. -/
def ReplaceAll (s old new : List α) : List α := replaceLoop old new (Count s old) s

end strings

/-! ## Package `regexp`

Only the part of the pattern language that `toRegExp` can produce is modelled:
literal characters, an escaped metacharacter `\c`, the dot `.`, and a star `*`
after one of these. -/

namespace regexp

/-- Go `regexp.special(b)`: the metacharacters `\.+*?()|[]\x7b\x7d^$`. -/
def special (c : Char) : Bool := "\\.+*?()|[]\x7b\x7d^$".toList.contains c

/-- Go `regexp.QuoteMeta(s)`: a backslash is put before every metacharacter. -/
def QuoteMeta : Str → Str
  | [] => []
  | c :: s => if special c then '\\' :: c :: QuoteMeta s else c :: QuoteMeta s

/-- A single-character matcher: a literal, or the dot.  `regexp.MustCompile` parses
with the Perl flags, under which the dot does not match a newline. -/
inductive Atom where
  | lit (c : Char)
  | anyNotNL
  deriving DecidableEq, Repr

/-- An atom, possibly under a star. -/
structure Piece where
  atom : Atom
  star : Bool
  deriving DecidableEq, Repr

/-- Lexical items of a pattern: a single-character matcher or the operator `*`. -/
inductive Tok where
  | atom (a : Atom)
  | starOp
  deriving DecidableEq, Repr

/-- Lexing of a pattern.  `\c` with `c` a metacharacter is the literal `c`; `.` is
the dot; `*` is the star operator; any other metacharacter, and any other escape,
is outside the modelled fragment (`none`). -/
def lex : Str → Option (List Tok)
  | [] => some []
  | c :: rest =>
    if c = '\\' then
      match rest with
      | [] => none
      | d :: rest' =>
        if special d then (lex rest').map (Tok.atom (Atom.lit d) :: ·) else none
    else if c = '.' then (lex rest).map (Tok.atom Atom.anyNotNL :: ·)
    else if c = '*' then (lex rest).map (Tok.starOp :: ·)
    else if special c then none
    else (lex rest).map (Tok.atom (Atom.lit c) :: ·)

/-- Grouping of the lexical items into pieces.  A star needs an atom before it
("missing argument to repetition operator") and may not follow another star
("invalid nested repetition operator"). -/
def build : List Tok → Option (List Piece)
  | [] => some []
  | Tok.starOp :: _ => none
  | Tok.atom a :: Tok.starOp :: rest =>
    match rest with
    | Tok.starOp :: _ => none
    | _ => (build rest).map (Piece.mk a true :: ·)
  | Tok.atom a :: rest => (build rest).map (Piece.mk a false :: ·)

/-- Go `*regexp.Regexp`: the source text and the compiled pattern, a
concatenation of pieces. -/
structure Regexp where
  expr : Str
  prog : List Piece
  deriving DecidableEq, Repr

/-- Go `regexp.MustCompile(str)` for a pattern given by its code points; `none` is
the panic on a pattern that does not parse.  Two refusals of the real function are
not in this definition: a pattern that is not valid UTF-8 cannot be written as a
`Str` (see `Raw.MustCompile`), and the size limit of the package is not modelled. -/
def MustCompile (str : Str) : Option Regexp :=
  ((lex str).bind build).map (Regexp.mk str)

/-- Go `(*Regexp).String()`: the source text the pattern was compiled from. -/
def Regexp.String (re : Regexp) : Str := re.expr

/-- Does the atom match the character. -/
def Atom.matchesChar : Atom → Char → Bool
  | Atom.lit c, d => decide (d = c)
  | Atom.anyNotNL, d => decide (d ≠ '\n')

/-- Matching `a*` followed by the continuation `k`: either `k` matches here, or
`a` matches the next character and the star goes on. -/
def starLoop (a : Atom) (k : Str → Bool) : Str → Bool
  | [] => k []
  | c :: cs => k (c :: cs) || (a.matchesChar c && starLoop a k cs)

/-- Does some initial segment of the text match the concatenation of pieces. -/
def matchHere : List Piece → Str → Bool
  | [] => fun _ => true
  | p :: ps =>
    if p.star then starLoop p.atom (matchHere ps)
    else fun cs =>
      match cs with
      | [] => false
      | c :: cs' => p.atom.matchesChar c && matchHere ps cs'

/-- Does a match start at some position of the text. -/
def matchAnywhere (ps : List Piece) : Str → Bool
  | [] => matchHere ps []
  | c :: cs => matchHere ps (c :: cs) || matchAnywhere ps cs

/-- Go `(*Regexp).MatchString(s)`: does `s` contain any match of the pattern. -/
def Regexp.MatchString (re : Regexp) (s : Str) : Bool := matchAnywhere re.prog s

end regexp

/-! ## The package itself: `awsarn.go` -/

/-- The two error values of the package. -/
inductive GoError where
  | ErrMalformed
  | ErrVariablesNotSupported
  deriving DecidableEq, Repr

/-- Go `type Components struct`. -/
structure Components where
  ARN : Str
  Partition : Str
  Service : Str
  Region : Str
  AccountID : Str
  ResourceType : Str
  Resource : Str
  ResourceDelimiter : Str
  deriving DecidableEq, Repr

/-- Go `func validate(arn string, pieces []string) error`. -/
def validate (arn : Str) (pieces : List Str) : Option GoError :=
  if strings.Contains arn "$\x7b".toList then
    some GoError.ErrVariablesNotSupported
  else if pieces.length < 6 then
    some GoError.ErrMalformed
  else
    none

/-- Go `func Validate(arn string) error`. -/
def Validate (arn : Str) : Option GoError :=
  let pieces := strings.SplitN arn ":".toList 6
  validate arn pieces

/-- Go `func Parse(arn string) (*Components, error)`.  The result pair is
`(components, err)`; the outer `none` is a run-time panic of an index expression
`pieces[i]` or `resourceParts[i]` that is out of range. -/
def Parse (arn : Str) : Option (Option Components × Option GoError) :=
  let pieces := strings.SplitN arn ":".toList 6
  match validate arn pieces with
  | some err => some (none, some err)
  | none => do
    let p0 ← pieces[0]?
    let p1 ← pieces[1]?
    let p2 ← pieces[2]?
    let p3 ← pieces[3]?
    let p4 ← pieces[4]?
    let components : Components :=
      { ARN := p0, Partition := p1, Service := p2, Region := p3, AccountID := p4,
        ResourceType := [], Resource := [], ResourceDelimiter := [] }
    let p5 ← pieces[5]?
    if strings.Count p5 ":".toList > 0 then do
      let resourceParts := strings.SplitN p5 ":".toList 2
      let r0 ← resourceParts[0]?
      let r1 ← resourceParts[1]?
      pure (some { components with
        ResourceDelimiter := ":".toList, ResourceType := r0, Resource := r1 }, none)
    else if strings.Count p5 "/".toList = 0 then
      pure (some { components with Resource := p5 }, none)
    else do
      let resourceParts := strings.SplitN p5 "/".toList 2
      let r0 ← resourceParts[0]?
      let r1 ← resourceParts[1]?
      pure (some { components with
        ResourceDelimiter := "/".toList, ResourceType := r0, Resource := r1 }, none)

/-- Go `func (c Components) ResourceChunk() string`. -/
def Components.ResourceChunk (c : Components) : Str :=
  c.ResourceType ++ c.ResourceDelimiter ++ c.Resource

/-- Go `func (c Components) String() string`. -/
def Components.String (c : Components) : Str :=
  let front := [c.ARN, c.Partition, c.Service, c.Region, c.AccountID]
  strings.Join front ":".toList ++ ":".toList ++ c.ResourceChunk

/-- The text that Go `toRegExp(s)` hands to `regexp.MustCompile`:
`QuoteMeta`, then `\*` replaced by `.*`, then `\?` replaced by `.`. -/
def toRegExpSource (s : Str) : Str :=
  let s := regexp.QuoteMeta s
  let s := strings.ReplaceAll s "\\*".toList ".*".toList
  let s := strings.ReplaceAll s "\\?".toList ".".toList
  s

/-- Go `func toRegExp(s string) *regexp.Regexp`; `none` is the panic of
`regexp.MustCompile`. -/
def toRegExp (s : Str) : Option regexp.Regexp :=
  regexp.MustCompile (toRegExpSource s)

/-- Go `reflect.DeepEqual(c, other)` as called in `SupersetOf`: `c` has type
`Components` and `other` has type `*Components`, and `DeepEqual` reports values of
distinct types as never deeply equal. -/
def deepEqualValuePointer (_c : Components) (_other : Components) : Bool := false

/-- The `pairs` slice of `SupersetOf`: pattern slot and candidate slot. -/
def pairs (c other : Components) : List (Str × Str) :=
  [ (c.ARN, other.ARN),
    (c.Partition, other.Partition),
    (c.Service, other.Service),
    (c.Region, other.Region),
    (c.AccountID, other.AccountID),
    (c.ResourceChunk, other.ResourceChunk) ]

/-- The loop `for _, p := range pairs` of `SupersetOf`: the first pair whose
candidate does not match returns `false`; pairs after it are not compiled. -/
def matchPairs : List (Str × Str) → Option Bool
  | [] => some true
  | p :: rest =>
    match toRegExp p.1 with
    | none => none
    | some re => if !re.MatchString p.2 then some false else matchPairs rest

/-- Go `func (c Components) SupersetOf(other *Components) bool`, for a non-nil
`other`; `none` is a panic inside `toRegExp`. -/
def Components.SupersetOf (c other : Components) : Option Bool :=
  if deepEqualValuePointer c other then some true
  else matchPairs (pairs c other)

/-! ## The wildcard reading of the specification -/

/-- The star of a glob followed by the rest `k` of the glob: the star takes any
sequence of characters. -/
def globStar (k : Str → Bool) : Str → Bool
  | [] => k []
  | c :: cs => k (c :: cs) || globStar k cs

/-- The specification's wildcard pattern: does the WHOLE candidate match the glob
in which `*` matches any sequence of zero or more arbitrary characters, `?` matches
exactly one arbitrary character, and every other character matches only itself. -/
def globMatch : Str → Str → Bool
  | [] => fun cs => cs.isEmpty
  | p :: ps =>
    if p = '*' then globStar (globMatch ps)
    else if p = '?' then fun cs =>
      match cs with
      | [] => false
      | _ :: cs' => globMatch ps cs'
    else fun cs =>
      match cs with
      | [] => false
      | c :: cs' => decide (c = p) && globMatch ps cs'

/-- The six comparison slots of an identifier, in the order of `SupersetOf`. -/
def slots (c : Components) : List Str :=
  [c.ARN, c.Partition, c.Service, c.Region, c.AccountID, c.ResourceChunk]

/-! ## Auxiliary predicates -/

/-- How the suffix `rest` (the sixth piece) is laid out in the three resource fields
of `c`: cut at its first `:`, else at its first `/`, else kept whole.  An auxiliary
predicate of the proofs about `Parse`. -/
def SuffixShape (rest : Str) (c : Components) : Prop :=
  (∃ t r, ':' ∉ t ∧ rest = t ++ ':' :: r ∧
      c.ResourceType = t ∧ c.Resource = r ∧ c.ResourceDelimiter = [':']) ∨
  (':' ∉ rest ∧ ∃ t r, '/' ∉ t ∧ rest = t ++ '/' :: r ∧
      c.ResourceType = t ∧ c.Resource = r ∧ c.ResourceDelimiter = ['/']) ∨
  (':' ∉ rest ∧ '/' ∉ rest ∧
      c.ResourceType = [] ∧ c.Resource = rest ∧ c.ResourceDelimiter = [])

/-! ### What `toRegExp` makes of one character -/

/-- The text `toRegExp` holds for one character after its first replacement. -/
def starSource (c : Char) : Str :=
  if c = '*' then ['.', '*'] else if regexp.special c then ['\\', c] else [c]

/-- The text after `QuoteMeta` and the first replacement, character by character. -/
def starSourceOf : Str → Str
  | [] => []
  | c :: s => starSource c ++ starSourceOf s

/-- The pattern text that stands for one character of the argument of `toRegExp`:
`.*` for `*`, `.` for `?`, a backslash and the character for any other metacharacter,
and the character itself otherwise. -/
def charSource (c : Char) : Str :=
  if c = '*' then ['.', '*']
  else if c = '?' then ['.']
  else if regexp.special c then ['\\', c]
  else [c]

/-- The concatenation of `charSource` over the characters of a string. -/
def sourceOf : Str → Str
  | [] => []
  | c :: s => charSource c ++ sourceOf s

/-- The lexical items that stand for one character of the argument of `toRegExp`. -/
def charToks (c : Char) : List regexp.Tok :=
  if c = '*' then [regexp.Tok.atom regexp.Atom.anyNotNL, regexp.Tok.starOp]
  else if c = '?' then [regexp.Tok.atom regexp.Atom.anyNotNL]
  else [regexp.Tok.atom (regexp.Atom.lit c)]

/-- The concatenation of `charToks` over the characters of a string. -/
def toksOf : Str → List regexp.Tok
  | [] => []
  | c :: s => charToks c ++ toksOf s

/-- The compiled piece that stands for one character of the argument of `toRegExp`:
the starred dot for `*`, the dot for `?`, the literal otherwise. -/
def charPiece (c : Char) : regexp.Piece :=
  if c = '*' then ⟨regexp.Atom.anyNotNL, true⟩
  else if c = '?' then ⟨regexp.Atom.anyNotNL, false⟩
  else ⟨regexp.Atom.lit c, false⟩

/-! ### Predicates and functions the later statements are written with -/

/-- The characters of a slot other than the wildcards `*` and `?`, in order. -/
def literalChars (a : Str) : Str :=
  a.filter fun ch => decide (ch ≠ '*') && decide (ch ≠ '?')

/-- The regex metacharacters other than `*` and `?`, as the specification of the
pattern text lists them. -/
def otherMetacharacters : Str :=
  ['\\', '.', '+', '(', ')', '|', '[', ']', '\x7b', '\x7d', '^', '$']

/-- The pattern text the specification gives for one character: `.*` for `*`, `.`
for `?`, a backslash followed by the character for every other regex
metacharacter, and the character itself otherwise. -/
def specCharSource (c : Char) : Str :=
  if c = '*' then ".*".toList
  else if c = '?' then ".".toList
  else if c ∈ otherMetacharacters then ['\\', c]
  else [c]

/-- The specification's pattern text of a string: the concatenation of
`specCharSource` over its characters, in order. -/
def specSource : Str → Str
  | [] => []
  | c :: s => specCharSource c ++ specSource s

/-- The parser-normal form of a components value: (i) no `:` in the five prefix
fields, (ii) no `$\x7b` in the serialised string, (iii) the suffix fields are as
`Parse` would cut them. -/
def NormalForm (c : Components) : Prop :=
  (':' ∉ c.ARN ∧ ':' ∉ c.Partition ∧ ':' ∉ c.Service ∧ ':' ∉ c.Region ∧
    ':' ∉ c.AccountID) ∧
  ¬ ("$\x7b".toList <:+: c.String) ∧
  ((c.ResourceDelimiter = ":".toList ∧ ':' ∉ c.ResourceType) ∨
   (c.ResourceDelimiter = "/".toList ∧ ':' ∉ c.ResourceType ∧ '/' ∉ c.ResourceType ∧
      ':' ∉ c.Resource) ∨
   (c.ResourceDelimiter = [] ∧ c.ResourceType = [] ∧ ':' ∉ c.Resource ∧
      '/' ∉ c.Resource))

/-- Matching of a concatenation of pieces followed by the continuation `k`; with
`k` accepting every text this is `regexp.matchHere`, and with `k` accepting only
the empty text it says that the whole text matches the pieces. -/
def matchThen : List regexp.Piece → (Str → Bool) → Str → Bool
  | [], k => k
  | p :: ps, k =>
    if p.star then regexp.starLoop p.atom (matchThen ps k)
    else fun cs =>
      match cs with
      | [] => false
      | c :: cs' => p.atom.matchesChar c && matchThen ps k cs'

/-- Does the whole text match the pattern of a slot as `toRegExp` compiles it (`*`
takes any run of characters other than newline, `?` one character other than
newline, any other character itself), with no `?` of the pattern standing against a
`*` of the text. -/
def matchAvoidingStar : Str → Str → Bool
  | [] => fun cs => cs.isEmpty
  | p :: ps =>
    if p = '*' then regexp.starLoop regexp.Atom.anyNotNL (matchAvoidingStar ps)
    else if p = '?' then fun cs =>
      match cs with
      | [] => false
      | c :: cs' => decide (c ≠ '\n') && decide (c ≠ '*') && matchAvoidingStar ps cs'
    else fun cs =>
      match cs with
      | [] => false
      | c :: cs' => decide (c = p) && matchAvoidingStar ps cs'

/-! ## The same code on raw Go strings

A Go string is a sequence of bytes and need not be valid UTF-8.  `Parse`,
`QuoteMeta` and `strings.Replace` work byte by byte, while `regexp.MustCompile` reads
its pattern rune by rune and refuses a pattern that is not valid UTF-8.  This
section reads the same source lines on bytes, so that the code can be evaluated on
such strings. -/

namespace Raw

/-- A Go `byte`. -/
abbrev Byte := Fin 256

/-- A Go `string`: its bytes. -/
abbrev GoString := List Byte

/-- The bytes of a string literal made of ASCII characters. -/
def ascii (s : String) : GoString := s.toList.map fun c => Fin.ofNat c.toNat

/-- Go `utf8.RuneError`, U+FFFD. -/
def RuneError : Char := Char.ofNat 0xFFFD

/-- The table `first` and the accept ranges of Go's package `utf8`: for a leading
byte, the length of the encoding and the range allowed for the second byte. -/
def leadingByte (b0 : Nat) : Option (Nat × Nat × Nat) :=
  if 0xC2 ≤ b0 ∧ b0 ≤ 0xDF then some (2, 0x80, 0xBF)
  else if b0 = 0xE0 then some (3, 0xA0, 0xBF)
  else if 0xE1 ≤ b0 ∧ b0 ≤ 0xEC then some (3, 0x80, 0xBF)
  else if b0 = 0xED then some (3, 0x80, 0x9F)
  else if 0xEE ≤ b0 ∧ b0 ≤ 0xEF then some (3, 0x80, 0xBF)
  else if b0 = 0xF0 then some (4, 0x90, 0xBF)
  else if 0xF1 ≤ b0 ∧ b0 ≤ 0xF3 then some (4, 0x80, 0xBF)
  else if b0 = 0xF4 then some (4, 0x80, 0x8F)
  else none

/-- A continuation byte, `0x80` to `0xBF`. -/
def isContinuation (b : Byte) : Bool := decide (0x80 ≤ b.val) && decide (b.val ≤ 0xBF)

/-- Go `utf8.DecodeRuneInString(s)`: the first rune and its
width in bytes.  `(none, 1)` stands for `(RuneError, 1)`, the result for a byte that
starts no valid encoding. -/
def DecodeRune : GoString → Option Char × Nat
  | [] => (none, 0)
  | b0 :: rest =>
    if b0.val < 0x80 then (some (Char.ofNat b0.val), 1)
    else
      match leadingByte b0.val, rest with
      | some (2, lo, hi), b1 :: _ =>
        if lo ≤ b1.val ∧ b1.val ≤ hi then
          (some (Char.ofNat (b0.val % 32 * 64 + b1.val % 64)), 2)
        else (none, 1)
      | some (3, lo, hi), b1 :: b2 :: _ =>
        if lo ≤ b1.val ∧ b1.val ≤ hi ∧ isContinuation b2 then
          (some (Char.ofNat (b0.val % 16 * 4096 + b1.val % 64 * 64 + b2.val % 64)), 3)
        else (none, 1)
      | some (4, lo, hi), b1 :: b2 :: b3 :: _ =>
        if lo ≤ b1.val ∧ b1.val ≤ hi ∧ isContinuation b2 ∧ isContinuation b3 then
          (some (Char.ofNat
            (b0.val % 8 * 262144 + b1.val % 64 * 4096 + b2.val % 64 * 64 + b3.val % 64)), 4)
        else (none, 1)
      | _, _ => (none, 1)

/-- The loop `for len(s) > 0 { r, size := DecodeRune(s); s = s[size:] }`: the runes
of a string.  The first argument counts the bytes still to be skipped, those of the
rune decoded last. -/
def decodeFrom : Nat → GoString → List (Option Char)
  | _, [] => []
  | 0, b :: rest =>
    (DecodeRune (b :: rest)).1 :: decodeFrom ((DecodeRune (b :: rest)).2 - 1) rest
  | k + 1, _ :: rest => decodeFrom k rest

/-- The runes of a string, `none` for each byte that starts no valid encoding. -/
def decode (s : GoString) : List (Option Char) := decodeFrom 0 s

/-- The runes of a string that is valid UTF-8 (Go `utf8.ValidString`); `none` when
some byte starts no valid encoding. -/
def validRunes : List (Option Char) → Option Str
  | [] => some []
  | none :: _ => none
  | some c :: rest => (validRunes rest).map (c :: ·)

/-- The runes of any string as package `regexp` reads a text to be matched: "each
byte of an invalid UTF-8 sequence is treated as if it encoded utf8.RuneError". -/
def lossyRunes (s : GoString) : Str := (decode s).map fun r => r.getD RuneError

/-- Go `regexp.special(b)` on a byte: `b < utf8.RuneSelf` and `b` is one of the
metacharacters. -/
def special (b : Byte) : Bool :=
  decide (b.val < 0x80) && Awsarn.regexp.special (Char.ofNat b.val)

/-- Go `regexp.QuoteMeta(s)`, byte by byte. -/
def QuoteMeta : GoString → GoString
  | [] => []
  | b :: s => if special b then 0x5C :: b :: QuoteMeta s else b :: QuoteMeta s

/-- Go `regexp.MustCompile(str)` on a raw string; `none` is its panic.  The parser
reads the pattern rune by rune and fails with "invalid UTF-8" on a byte that starts
no valid encoding.  The package also refuses very large patterns ("expression too
large", which a field of a few million wildcards reaches); that limit is not
modelled. -/
def MustCompile (str : GoString) : Option Awsarn.regexp.Regexp :=
  match validRunes (decode str) with
  | none => none
  | some text => Awsarn.regexp.MustCompile text

/-- Go `(*Regexp).MatchString(s)` on a raw string. -/
def MatchString (re : Awsarn.regexp.Regexp) (s : GoString) : Bool :=
  re.MatchString (lossyRunes s)

/-- Go `type Components struct`, with the fields as raw strings. -/
structure Components where
  ARN : GoString
  Partition : GoString
  Service : GoString
  Region : GoString
  AccountID : GoString
  ResourceType : GoString
  Resource : GoString
  ResourceDelimiter : GoString
  deriving DecidableEq, Repr

/-- Go `func validate(arn string, pieces []string) error`. -/
def validate (arn : GoString) (pieces : List GoString) : Option GoError :=
  if strings.Contains arn (ascii "$\x7b") then
    some GoError.ErrVariablesNotSupported
  else if pieces.length < 6 then
    some GoError.ErrMalformed
  else
    none

/-- Go `func Parse(arn string) (*Components, error)` on a raw string, line by line
as `Awsarn.Parse`. -/
def Parse (arn : GoString) : Option (Option Components × Option GoError) :=
  let pieces := strings.SplitN arn (ascii ":") 6
  match validate arn pieces with
  | some err => some (none, some err)
  | none => do
    let p0 ← pieces[0]?
    let p1 ← pieces[1]?
    let p2 ← pieces[2]?
    let p3 ← pieces[3]?
    let p4 ← pieces[4]?
    let components : Components :=
      { ARN := p0, Partition := p1, Service := p2, Region := p3, AccountID := p4,
        ResourceType := [], Resource := [], ResourceDelimiter := [] }
    let p5 ← pieces[5]?
    if strings.Count p5 (ascii ":") > 0 then do
      let resourceParts := strings.SplitN p5 (ascii ":") 2
      let r0 ← resourceParts[0]?
      let r1 ← resourceParts[1]?
      pure (some { components with
        ResourceDelimiter := ascii ":", ResourceType := r0, Resource := r1 }, none)
    else if strings.Count p5 (ascii "/") = 0 then
      pure (some { components with Resource := p5 }, none)
    else do
      let resourceParts := strings.SplitN p5 (ascii "/") 2
      let r0 ← resourceParts[0]?
      let r1 ← resourceParts[1]?
      pure (some { components with
        ResourceDelimiter := ascii "/", ResourceType := r0, Resource := r1 }, none)

/-- Go `func (c Components) ResourceChunk() string`. -/
def Components.ResourceChunk (c : Components) : GoString :=
  c.ResourceType ++ c.ResourceDelimiter ++ c.Resource

/-- Go `func toRegExp(s string) *regexp.Regexp` on a raw string; `none` is the
panic of `regexp.MustCompile`. -/
def toRegExp (s : GoString) : Option Awsarn.regexp.Regexp :=
  let s := QuoteMeta s
  let s := strings.ReplaceAll s (ascii "\\*") (ascii ".*")
  let s := strings.ReplaceAll s (ascii "\\?") (ascii ".")
  MustCompile s

/-- Go `reflect.DeepEqual(c, other)` as called in `SupersetOf`: a `Components`
against a `*Components`, values of distinct types, never deeply equal. -/
def deepEqualValuePointer (_c : Components) (_other : Components) : Bool := false

/-- The `pairs` slice of `SupersetOf`. -/
def pairs (c other : Components) : List (GoString × GoString) :=
  [ (c.ARN, other.ARN),
    (c.Partition, other.Partition),
    (c.Service, other.Service),
    (c.Region, other.Region),
    (c.AccountID, other.AccountID),
    (c.ResourceChunk, other.ResourceChunk) ]

/-- The loop `for _, p := range pairs` of `SupersetOf`. -/
def matchPairs : List (GoString × GoString) → Option Bool
  | [] => some true
  | p :: rest =>
    match toRegExp p.1 with
    | none => none
    | some re => if !MatchString re p.2 then some false else matchPairs rest

/-- Go `func (c Components) SupersetOf(other *Components) bool` on raw strings, for
a non-nil `other`; `none` is a panic inside `toRegExp`. -/
def Components.SupersetOf (c other : Components) : Option Bool :=
  if deepEqualValuePointer c other then some true
  else matchPairs (pairs c other)

end Raw

/-! ## Facts about the `strings` functions, for a one-character separator -/

namespace strings

theorem startsWith_singleton (d c : Char) (s : Str) :
    startsWith (d :: s) [c] = decide (d = c) := by
  simp [startsWith]

theorem startsWith_iff (s p : Str) : startsWith s p = true ↔ p <+: s := by
  induction p generalizing s with
  | nil => simp [startsWith]
  | cons d p ih =>
    cases s with
    | nil => simp [startsWith]
    | cons c s =>
      simp only [startsWith, Bool.and_eq_true, decide_eq_true_eq, ih, List.cons_prefix_cons]
      constructor
      · rintro ⟨h, h2⟩; exact ⟨h.symm, h2⟩
      · rintro ⟨h, h2⟩; exact ⟨h.symm, h2⟩

theorem Index_isSome_iff (s sub : Str) : (Index s sub).isSome = true ↔ sub <:+: s := by
  induction s with
  | nil =>
    simp only [Index]
    by_cases h : sub = []
    · simp [h]
    · simp [h]
  | cons c s ih =>
    simp only [Index]
    rw [List.infix_cons_iff, ← ih, ← startsWith_iff]
    by_cases h : startsWith (c :: s) sub = true
    · simp [h]
    · simp [h]

theorem Contains_iff (s sub : Str) : Contains s sub = true ↔ sub <:+: s :=
  Index_isSome_iff s sub

theorem Index_singleton_cons (d c : Char) (s : Str) :
    Index (d :: s) [c] = if d = c then some 0 else (Index s [c]).map (· + 1) := by
  simp [Index, startsWith_singleton]

theorem Index_singleton_of_not_mem (c : Char) (s : Str) (h : c ∉ s) :
    Index s [c] = none := by
  induction s with
  | nil => simp [Index]
  | cons d s ih =>
    rw [Index_singleton_cons]
    have h1 : d ≠ c := fun e => h (by simp [e])
    have h2 : c ∉ s := fun e => h (by simp [e])
    simp [h1, ih h2]

theorem Index_singleton_append (c : Char) (t r : Str) (h : c ∉ t) :
    Index (t ++ c :: r) [c] = some t.length := by
  induction t with
  | nil => simp [Index_singleton_cons]
  | cons d t ih =>
    have h1 : d ≠ c := fun e => h (by simp [e])
    have h2 : c ∉ t := fun e => h (by simp [e])
    rw [List.cons_append, Index_singleton_cons]
    simp [h1, ih h2]

theorem Index_singleton_eq_none_iff (c : Char) (s : Str) :
    Index s [c] = none ↔ c ∉ s := by
  constructor
  · intro h hm
    obtain ⟨t, r, rfl, hnot⟩ := List.eq_append_cons_of_mem hm
    rw [Index_singleton_append c t r hnot] at h
    exact Option.noConfusion h
  · exact Index_singleton_of_not_mem c s

theorem countLoop_fuel (sub : Str) (hsub : sub ≠ []) :
    ∀ (n m : Nat) (s : Str), s.length ≤ n → s.length ≤ m →
      countLoop sub n s = countLoop sub m s := by
  have hlen : 0 < sub.length := List.length_pos.mpr hsub
  have hnil : Index [] sub = none := by simp [Index, hsub]
  intro n
  induction n with
  | zero =>
    intro m s hn _
    have hs : s = [] := List.length_eq_zero.mp (Nat.le_zero.mp hn)
    subst hs
    cases m with
    | zero => rfl
    | succ m => simp [countLoop, hnil]
  | succ n ih =>
    intro m s hn hm
    cases m with
    | zero =>
      have hs : s = [] := List.length_eq_zero.mp (Nat.le_zero.mp hm)
      subst hs
      simp [countLoop, hnil]
    | succ m =>
      simp only [countLoop]
      cases hI : Index s sub with
      | none => rfl
      | some i =>
        simp only
        rw [ih m (s.drop (i + sub.length))]
        · simp only [List.length_drop]; omega
        · simp only [List.length_drop]; omega

theorem Count_of_Index_none (s sub : Str) (h : Index s sub = none) : Count s sub = 0 := by
  unfold Count
  cases hl : s.length with
  | zero => rfl
  | succ n => simp [countLoop, h]

theorem Count_of_Index_some (s sub : Str) (hsub : sub ≠ []) (i : Nat)
    (h : Index s sub = some i) : Count s sub = 1 + Count (s.drop (i + sub.length)) sub := by
  have hlen : 0 < sub.length := List.length_pos.mpr hsub
  unfold Count
  cases hl : s.length with
  | zero =>
    have hs : s = [] := List.length_eq_zero.mp hl
    subst hs
    simp [Index, hsub] at h
  | succ n =>
    simp only [countLoop, h]
    rw [countLoop_fuel sub hsub n (s.drop (i + sub.length)).length]
    · simp only [List.length_drop]; omega
    · exact Nat.le_refl _

theorem Count_singleton (c : Char) : ∀ (n : Nat) (s : Str), s.length ≤ n →
    Count s [c] = s.count c := by
  intro n
  induction n with
  | zero =>
    intro s hs
    have hs : s = [] := List.length_eq_zero.mp (Nat.le_zero.mp hs)
    subst hs
    rfl
  | succ n ih =>
    intro s hs
    by_cases hm : c ∈ s
    · obtain ⟨t, r, rfl, hnot⟩ := List.eq_append_cons_of_mem hm
      rw [Count_of_Index_some _ _ (by simp) _ (Index_singleton_append c t r hnot)]
      have hd : List.drop (t.length + [c].length) (t ++ c :: r) = r := by
        rw [List.drop_append]; rfl
      rw [hd, ih r (by simp at hs; omega)]
      simp [List.count_append, List.count_eq_zero_of_not_mem hnot]
      omega
    · rw [Count_of_Index_none _ _ (Index_singleton_of_not_mem c s hm)]
      exact (List.count_eq_zero_of_not_mem hm).symm

theorem Count_singleton_eq (c : Char) (s : Str) : Count s [c] = s.count c :=
  Count_singleton c s.length s (Nat.le_refl _)

theorem splitLoop_of_not_mem (c : Char) (n : Nat) (s : Str) (h : c ∉ s) :
    splitLoop [c] (n + 1) s = [s] := by
  cases n with
  | zero => rfl
  | succ n => simp [splitLoop, Index_singleton_of_not_mem c s h]

theorem splitLoop_append (c : Char) (n : Nat) (t r : Str) (h : c ∉ t) :
    splitLoop [c] (n + 2) (t ++ c :: r) = t :: splitLoop [c] (n + 1) r := by
  have hd : List.drop (t.length + [c].length) (t ++ c :: r) = r := by
    rw [List.drop_append]; rfl
  simp only [splitLoop, Index_singleton_append c t r h, hd]
  simp

theorem length_splitLoop (c : Char) : ∀ (n : Nat) (s : Str),
    (splitLoop [c] n s).length = min n (s.count c + 1) := by
  intro n
  induction n with
  | zero => intro s; simp [splitLoop]
  | succ n ih =>
    intro s
    cases n with
    | zero => simp [splitLoop]
    | succ n =>
      by_cases hm : c ∈ s
      · obtain ⟨t, r, rfl, hnot⟩ := List.eq_append_cons_of_mem hm
        rw [splitLoop_append c n t r hnot, List.length_cons, ih r]
        simp [List.count_append, List.count_eq_zero_of_not_mem hnot]
        omega
      · rw [splitLoop_of_not_mem c (n + 1) s hm, List.count_eq_zero_of_not_mem hm]
        simp

end strings

theorem colon_toList : ":".toList = [':'] := rfl
theorem slash_toList : "/".toList = ['/'] := rfl

theorem exists_cut (c : Char) (s : Str) (h : 0 < s.count c) :
    ∃ t r, c ∉ t ∧ s = t ++ c :: r ∧ s.count c = r.count c + 1 := by
  obtain ⟨t, r, rfl, hnot⟩ := List.eq_append_cons_of_mem (List.count_pos_iff.mp h)
  refine ⟨t, r, hnot, rfl, ?_⟩
  simp [List.count_append, List.count_eq_zero_of_not_mem hnot]

theorem exists_six_pieces (s : Str) (h : 5 ≤ s.count ':') :
    ∃ p0 p1 p2 p3 p4 rest, ':' ∉ p0 ∧ ':' ∉ p1 ∧ ':' ∉ p2 ∧ ':' ∉ p3 ∧ ':' ∉ p4 ∧
      s = p0 ++ ':' :: (p1 ++ ':' :: (p2 ++ ':' :: (p3 ++ ':' :: (p4 ++ ':' :: rest)))) := by
  obtain ⟨p0, r0, h0, rfl, e0⟩ := exists_cut ':' s (by omega)
  obtain ⟨p1, r1, h1, rfl, e1⟩ := exists_cut ':' r0 (by omega)
  obtain ⟨p2, r2, h2, rfl, e2⟩ := exists_cut ':' r1 (by omega)
  obtain ⟨p3, r3, h3, rfl, e3⟩ := exists_cut ':' r2 (by omega)
  obtain ⟨p4, r4, h4, rfl, e4⟩ := exists_cut ':' r3 (by omega)
  exact ⟨p0, p1, p2, p3, p4, r4, h0, h1, h2, h3, h4, rfl⟩

theorem SplitN_six (p0 p1 p2 p3 p4 rest : Str)
    (h0 : ':' ∉ p0) (h1 : ':' ∉ p1) (h2 : ':' ∉ p2) (h3 : ':' ∉ p3) (h4 : ':' ∉ p4) :
    strings.SplitN
      (p0 ++ ':' :: (p1 ++ ':' :: (p2 ++ ':' :: (p3 ++ ':' :: (p4 ++ ':' :: rest)))))
      ":".toList 6 = [p0, p1, p2, p3, p4, rest] := by
  unfold strings.SplitN
  rw [colon_toList, strings.splitLoop_append _ _ _ _ h0, strings.splitLoop_append _ _ _ _ h1,
    strings.splitLoop_append _ _ _ _ h2, strings.splitLoop_append _ _ _ _ h3,
    strings.splitLoop_append _ _ _ _ h4]
  rfl

theorem SplitN_two (c : Char) (t r : Str) (h : c ∉ t) :
    strings.SplitN (t ++ c :: r) [c] 2 = [t, r] := by
  unfold strings.SplitN
  rw [strings.splitLoop_append _ _ _ _ h]
  rfl

/-- The value `Parse` builds from the five prefix pieces and the three suffix
fields. -/
theorem Parse_colon (p0 p1 p2 p3 p4 t r : Str)
    (h0 : ':' ∉ p0) (h1 : ':' ∉ p1) (h2 : ':' ∉ p2) (h3 : ':' ∉ p3) (h4 : ':' ∉ p4)
    (ht : ':' ∉ t)
    (hv : strings.Contains
      (p0 ++ ':' :: (p1 ++ ':' :: (p2 ++ ':' :: (p3 ++ ':' :: (p4 ++ ':' :: (t ++ ':' :: r))))))
      "$\x7b".toList = false) :
    Parse (p0 ++ ':' :: (p1 ++ ':' :: (p2 ++ ':' :: (p3 ++ ':' :: (p4 ++ ':' :: (t ++ ':' :: r))))))
      = some (some { ARN := p0, Partition := p1, Service := p2, Region := p3, AccountID := p4,
                     ResourceType := t, Resource := r, ResourceDelimiter := ":".toList }, none) := by
  have hc : 0 < strings.Count (t ++ ':' :: r) [':'] := by
    rw [strings.Count_singleton_eq]; exact List.count_pos_iff.mpr (by simp)
  simp only [Parse, SplitN_six p0 p1 p2 p3 p4 _ h0 h1 h2 h3 h4, validate, hv]
  simp [colon_toList, hc, SplitN_two ':' t r ht]

theorem Parse_slash (p0 p1 p2 p3 p4 t r : Str)
    (h0 : ':' ∉ p0) (h1 : ':' ∉ p1) (h2 : ':' ∉ p2) (h3 : ':' ∉ p3) (h4 : ':' ∉ p4)
    (ht : ':' ∉ t) (ht' : '/' ∉ t) (hr : ':' ∉ r)
    (hv : strings.Contains
      (p0 ++ ':' :: (p1 ++ ':' :: (p2 ++ ':' :: (p3 ++ ':' :: (p4 ++ ':' :: (t ++ '/' :: r))))))
      "$\x7b".toList = false) :
    Parse (p0 ++ ':' :: (p1 ++ ':' :: (p2 ++ ':' :: (p3 ++ ':' :: (p4 ++ ':' :: (t ++ '/' :: r))))))
      = some (some { ARN := p0, Partition := p1, Service := p2, Region := p3, AccountID := p4,
                     ResourceType := t, Resource := r, ResourceDelimiter := "/".toList }, none) := by
  have hc : strings.Count (t ++ '/' :: r) [':'] = 0 := by
    rw [strings.Count_singleton_eq]
    exact List.count_eq_zero_of_not_mem (by simp [ht, hr])
  have hs : strings.Count (t ++ '/' :: r) ['/'] ≠ 0 := by
    rw [strings.Count_singleton_eq]
    exact Nat.pos_iff_ne_zero.mp (List.count_pos_iff.mpr (by simp))
  simp only [Parse, SplitN_six p0 p1 p2 p3 p4 _ h0 h1 h2 h3 h4, validate, hv]
  simp [colon_toList, slash_toList, hc, hs, SplitN_two '/' t r ht']

theorem Parse_bare (p0 p1 p2 p3 p4 rest : Str)
    (h0 : ':' ∉ p0) (h1 : ':' ∉ p1) (h2 : ':' ∉ p2) (h3 : ':' ∉ p3) (h4 : ':' ∉ p4)
    (hr : ':' ∉ rest) (hr' : '/' ∉ rest)
    (hv : strings.Contains
      (p0 ++ ':' :: (p1 ++ ':' :: (p2 ++ ':' :: (p3 ++ ':' :: (p4 ++ ':' :: rest)))))
      "$\x7b".toList = false) :
    Parse (p0 ++ ':' :: (p1 ++ ':' :: (p2 ++ ':' :: (p3 ++ ':' :: (p4 ++ ':' :: rest)))))
      = some (some { ARN := p0, Partition := p1, Service := p2, Region := p3, AccountID := p4,
                     ResourceType := [], Resource := rest, ResourceDelimiter := [] }, none) := by
  have hc : strings.Count rest [':'] = 0 := by
    rw [strings.Count_singleton_eq]; exact List.count_eq_zero_of_not_mem hr
  have hs : strings.Count rest ['/'] = 0 := by
    rw [strings.Count_singleton_eq]; exact List.count_eq_zero_of_not_mem hr'
  simp only [Parse, SplitN_six p0 p1 p2 p3 p4 _ h0 h1 h2 h3 h4, validate, hv]
  simp [colon_toList, slash_toList, hc, hs]

theorem Parse_vars (s : Str) (hv : strings.Contains s "$\x7b".toList = true) :
    Parse s = some (none, some GoError.ErrVariablesNotSupported) := by
  simp only [Parse, validate, hv]
  rfl

theorem Parse_short (s : Str) (hv : strings.Contains s "$\x7b".toList = false)
    (hc : s.count ':' < 5) :
    Parse s = some (none, some GoError.ErrMalformed) := by
  have hl : (strings.SplitN s ":".toList 6).length < 6 := by
    unfold strings.SplitN
    rw [colon_toList, strings.length_splitLoop]
    omega
  simp only [Parse, validate, hv, hl]
  rfl

/-! ## The outcomes of `Parse` -/

theorem Contains_eq_false_iff (s sub : Str) :
    strings.Contains s sub = false ↔ ¬ (sub <:+: s) := by
  rw [← strings.Contains_iff]; simp

theorem Parse_six (p0 p1 p2 p3 p4 rest : Str)
    (h0 : ':' ∉ p0) (h1 : ':' ∉ p1) (h2 : ':' ∉ p2) (h3 : ':' ∉ p3) (h4 : ':' ∉ p4)
    (hv : strings.Contains
      (p0 ++ ':' :: (p1 ++ ':' :: (p2 ++ ':' :: (p3 ++ ':' :: (p4 ++ ':' :: rest)))))
      "$\x7b".toList = false) :
    ∃ c, Parse (p0 ++ ':' :: (p1 ++ ':' :: (p2 ++ ':' :: (p3 ++ ':' :: (p4 ++ ':' :: rest)))))
        = some (some c, none) ∧
      c.ARN = p0 ∧ c.Partition = p1 ∧ c.Service = p2 ∧ c.Region = p3 ∧ c.AccountID = p4 ∧
      SuffixShape rest c := by
  by_cases hc : ':' ∈ rest
  · obtain ⟨t, r, rfl, ht⟩ := List.eq_append_cons_of_mem hc
    exact ⟨_, Parse_colon p0 p1 p2 p3 p4 t r h0 h1 h2 h3 h4 ht hv, rfl, rfl, rfl, rfl, rfl,
      Or.inl ⟨t, r, ht, rfl, rfl, rfl, rfl⟩⟩
  · by_cases hs : '/' ∈ rest
    · obtain ⟨t, r, rfl, ht⟩ := List.eq_append_cons_of_mem hs
      have ht' : ':' ∉ t := fun e => hc (by simp [e])
      have hr' : ':' ∉ r := fun e => hc (by simp [e])
      exact ⟨_, Parse_slash p0 p1 p2 p3 p4 t r h0 h1 h2 h3 h4 ht' ht hr' hv,
        rfl, rfl, rfl, rfl, rfl, Or.inr (Or.inl ⟨hc, t, r, ht, rfl, rfl, rfl, rfl⟩)⟩
    · exact ⟨_, Parse_bare p0 p1 p2 p3 p4 rest h0 h1 h2 h3 h4 hc hs hv,
        rfl, rfl, rfl, rfl, rfl, Or.inr (Or.inr ⟨hc, hs, rfl, rfl, rfl⟩)⟩

theorem SuffixShape_chunk (rest : Str) (c : Components) (h : SuffixShape rest c) :
    c.ResourceChunk = rest := by
  unfold Components.ResourceChunk
  rcases h with ⟨t, r, _, rfl, h1, h2, h3⟩ | ⟨_, t, r, _, rfl, h1, h2, h3⟩ | ⟨_, _, h1, h2, h3⟩
  · simp [h1, h2, h3]
  · simp [h1, h2, h3]
  · simp [h1, h2, h3]

/-- Every outcome of `Parse`. -/
theorem Parse_cases (s : Str) :
    (strings.Contains s "$\x7b".toList = true ∧
      Parse s = some (none, some GoError.ErrVariablesNotSupported)) ∨
    (strings.Contains s "$\x7b".toList = false ∧ s.count ':' < 5 ∧
      Parse s = some (none, some GoError.ErrMalformed)) ∨
    (strings.Contains s "$\x7b".toList = false ∧ 5 ≤ s.count ':' ∧
      ∃ p0 p1 p2 p3 p4 rest c,
        ':' ∉ p0 ∧ ':' ∉ p1 ∧ ':' ∉ p2 ∧ ':' ∉ p3 ∧ ':' ∉ p4 ∧
        s = p0 ++ ':' :: (p1 ++ ':' :: (p2 ++ ':' :: (p3 ++ ':' :: (p4 ++ ':' :: rest)))) ∧
        Parse s = some (some c, none) ∧
        c.ARN = p0 ∧ c.Partition = p1 ∧ c.Service = p2 ∧ c.Region = p3 ∧ c.AccountID = p4 ∧
        SuffixShape rest c) := by
  cases hv : strings.Contains s "$\x7b".toList with
  | true => exact Or.inl ⟨rfl, Parse_vars s hv⟩
  | false =>
    by_cases hc : s.count ':' < 5
    · exact Or.inr (Or.inl ⟨rfl, hc, Parse_short s hv hc⟩)
    · have hc' : 5 ≤ s.count ':' := Nat.le_of_not_lt hc
      obtain ⟨p0, p1, p2, p3, p4, rest, h0, h1, h2, h3, h4, rfl⟩ := exists_six_pieces s hc'
      obtain ⟨c, hP, e⟩ := Parse_six p0 p1 p2 p3 p4 rest h0 h1 h2 h3 h4 hv
      exact Or.inr (Or.inr ⟨rfl, hc', p0, p1, p2, p3, p4, rest, c, h0, h1, h2, h3, h4, rfl, hP, e⟩)

/-- What a successful `Parse` says about its input and its result. -/
theorem Parse_ok_inv (s : Str) (c : Components) (h : Parse s = some (some c, none)) :
    strings.Contains s "$\x7b".toList = false ∧ 5 ≤ s.count ':' ∧
    ':' ∉ c.ARN ∧ ':' ∉ c.Partition ∧ ':' ∉ c.Service ∧ ':' ∉ c.Region ∧ ':' ∉ c.AccountID ∧
    ∃ rest, s = c.ARN ++ ':' :: (c.Partition ++ ':' :: (c.Service ++ ':' ::
        (c.Region ++ ':' :: (c.AccountID ++ ':' :: rest)))) ∧ SuffixShape rest c := by
  rcases Parse_cases s with ⟨_, hP⟩ | ⟨_, _, hP⟩ |
    ⟨hv, hc, p0, p1, p2, p3, p4, rest, c', h0, h1, h2, h3, h4, hs, hP, e0, e1, e2, e3, e4, hsh⟩
  · rw [hP] at h; simp at h
  · rw [hP] at h; simp at h
  · rw [hP] at h
    have hcc : c' = c := by simpa using h
    subst hcc
    rw [e0, e1, e2, e3, e4]
    exact ⟨hv, hc, h0, h1, h2, h3, h4, rest, hs, hsh⟩

theorem Validate_eq (s : Str) :
    Validate s = if strings.Contains s "$\x7b".toList then some GoError.ErrVariablesNotSupported
      else if s.count ':' < 5 then some GoError.ErrMalformed else none := by
  have hl : (strings.SplitN s ":".toList 6).length = min 6 (s.count ':' + 1) := by
    unfold strings.SplitN
    rw [colon_toList, strings.length_splitLoop]
  simp only [Validate, validate, hl]
  by_cases hc : s.count ':' < 5
  · have : min 6 (s.count ':' + 1) < 6 := by omega
    simp [hc, this]
  · have : ¬ (min 6 (s.count ':' + 1) < 6) := by omega
    simp [hc, this]

/-! ## Facts about `strings.Replace` -/

namespace strings

theorem Index_nil (old : Str) (h : old ≠ []) : Index [] old = none := by
  simp [Index, h]

theorem startsWith_append_self (old t : Str) : startsWith (old ++ t) old = true := by
  rw [startsWith_iff]; exact List.prefix_append old t

theorem Index_append_self (old t : Str) : Index (old ++ t) old = some 0 := by
  cases h : old ++ t with
  | nil =>
    have : old = [] := (List.append_eq_nil.mp h).1
    simp [Index, this]
  | cons c s =>
    have hs := startsWith_append_self old t
    rw [h] at hs
    simp [Index, hs]

theorem Index_cons_of_not_startsWith (c : Char) (s old : Str)
    (h : startsWith (c :: s) old = false) :
    Index (c :: s) old = (Index s old).map (· + 1) := by
  simp [Index, h]

theorem Count_nil (old : Str) : Count [] old = 0 := rfl

theorem Count_append_self (old t : Str) (h : old ≠ []) :
    Count (old ++ t) old = 1 + Count t old := by
  rw [Count_of_Index_some _ _ h 0 (Index_append_self old t)]
  simp

theorem Count_cons_of_not_startsWith (c : Char) (s old : Str) (h : old ≠ [])
    (hs : startsWith (c :: s) old = false) :
    Count (c :: s) old = Count s old := by
  have hI := Index_cons_of_not_startsWith c s old hs
  cases hi : Index s old with
  | none =>
    rw [hi] at hI
    rw [Count_of_Index_none _ _ hI, Count_of_Index_none _ _ hi]
  | some i =>
    rw [hi] at hI
    rw [Count_of_Index_some _ _ h _ hI, Count_of_Index_some _ _ h _ hi]
    have : i + 1 + old.length = (i + old.length) + 1 := by omega
    rw [this, List.drop_succ_cons]

theorem ReplaceAll_nil (old new : Str) : ReplaceAll [] old new = [] := rfl

theorem ReplaceAll_append_self (old new t : Str) (h : old ≠ []) :
    ReplaceAll (old ++ t) old new = new ++ ReplaceAll t old new := by
  unfold ReplaceAll
  rw [Count_append_self old t h, Nat.add_comm]
  simp [replaceLoop, Index_append_self]

theorem ReplaceAll_cons_of_not_startsWith (c : Char) (s old new : Str) (h : old ≠ [])
    (hs : startsWith (c :: s) old = false) :
    ReplaceAll (c :: s) old new = c :: ReplaceAll s old new := by
  unfold ReplaceAll
  rw [Count_cons_of_not_startsWith c s old h hs]
  have hI := Index_cons_of_not_startsWith c s old hs
  cases hi : Index s old with
  | none =>
    rw [Count_of_Index_none _ _ hi]
    rfl
  | some i =>
    rw [hi] at hI
    rw [Count_of_Index_some _ _ h _ hi, Nat.add_comm]
    simp only [replaceLoop, hI, hi, Option.map_some']
    have : i + 1 + old.length = (i + old.length) + 1 := by omega
    rw [this, List.drop_succ_cons, List.take_succ_cons]
    simp

end strings

/-! ## The pattern that `toRegExp` compiles -/

theorem special_star : regexp.special '*' = true := by decide
theorem special_quest : regexp.special '?' = true := by decide

theorem ne_of_not_special (c d : Char) (hd : regexp.special d = true)
    (hc : regexp.special c = false) : c ≠ d := by
  intro e; rw [e, hd] at hc; exact Bool.noConfusion hc

theorem startsWith_cons_cons (c d : Char) (s p : Str) :
    strings.startsWith (c :: s) (d :: p) = (decide (c = d) && strings.startsWith s p) := rfl

theorem QuoteMeta_head (s p : Str) :
    strings.startsWith (regexp.QuoteMeta s) ('*' :: p) = false := by
  cases s with
  | nil => rfl
  | cons c s =>
    by_cases hc : regexp.special c = true
    · simp [regexp.QuoteMeta, hc, startsWith_cons_cons]
    · have hc' : regexp.special c = false := by simpa using hc
      have := ne_of_not_special c '*' special_star hc'
      simp [regexp.QuoteMeta, hc', startsWith_cons_cons, this]

theorem starSourceOf_head (s p : Str) :
    strings.startsWith (starSourceOf s) ('?' :: p) = false := by
  cases s with
  | nil => rfl
  | cons c s =>
    by_cases h1 : c = '*'
    · simp [starSourceOf, starSource, h1, startsWith_cons_cons]
    · by_cases hc : regexp.special c = true
      · simp [starSourceOf, starSource, h1, hc, startsWith_cons_cons]
      · have hc' : regexp.special c = false := by simpa using hc
        have := ne_of_not_special c '?' special_quest hc'
        simp [starSourceOf, starSource, h1, hc', startsWith_cons_cons, this]

theorem ReplaceAll_QuoteMeta (s : Str) :
    strings.ReplaceAll (regexp.QuoteMeta s) ['\\', '*'] ['.', '*'] = starSourceOf s := by
  induction s with
  | nil => rfl
  | cons c s ih =>
    by_cases h1 : c = '*'
    · subst h1
      have e : regexp.QuoteMeta ('*' :: s) = ['\\', '*'] ++ regexp.QuoteMeta s := by
        simp [regexp.QuoteMeta, special_star]
      rw [e, strings.ReplaceAll_append_self _ _ _ (by simp), ih]
      simp [starSourceOf, starSource]
    · by_cases hc : regexp.special c = true
      · have e : regexp.QuoteMeta (c :: s) = '\\' :: c :: regexp.QuoteMeta s := by
          simp [regexp.QuoteMeta, hc]
        rw [e, strings.ReplaceAll_cons_of_not_startsWith _ _ _ _ (by simp)
              (by simp [startsWith_cons_cons, h1]),
            strings.ReplaceAll_cons_of_not_startsWith _ _ _ _ (by simp)
              (by rw [startsWith_cons_cons, QuoteMeta_head]; simp), ih]
        simp [starSourceOf, starSource, h1, hc]
      · have hc' : regexp.special c = false := by simpa using hc
        have hb := ne_of_not_special c '\\' (by decide) hc'
        have e : regexp.QuoteMeta (c :: s) = c :: regexp.QuoteMeta s := by
          simp [regexp.QuoteMeta, hc']
        rw [e, strings.ReplaceAll_cons_of_not_startsWith _ _ _ _ (by simp)
              (by simp [startsWith_cons_cons, hb]), ih]
        simp [starSourceOf, starSource, h1, hc']

theorem ReplaceAll_starSourceOf (s : Str) :
    strings.ReplaceAll (starSourceOf s) ['\\', '?'] ['.'] = sourceOf s := by
  induction s with
  | nil => rfl
  | cons c s ih =>
    by_cases h1 : c = '*'
    · subst h1
      have e : starSourceOf ('*' :: s) = '.' :: '*' :: starSourceOf s := by
        simp [starSourceOf, starSource]
      rw [e, strings.ReplaceAll_cons_of_not_startsWith _ _ _ _ (by simp)
            (by simp [startsWith_cons_cons]),
          strings.ReplaceAll_cons_of_not_startsWith _ _ _ _ (by simp)
            (by simp [startsWith_cons_cons]), ih]
      simp [sourceOf, charSource]
    · by_cases h2 : c = '?'
      · subst h2
        have e : starSourceOf ('?' :: s) = ['\\', '?'] ++ starSourceOf s := by
          simp [starSourceOf, starSource, special_quest]
        rw [e, strings.ReplaceAll_append_self _ _ _ (by simp), ih]
        simp [sourceOf, charSource]
      · by_cases hc : regexp.special c = true
        · have e : starSourceOf (c :: s) = '\\' :: c :: starSourceOf s := by
            simp [starSourceOf, starSource, h1, hc]
          rw [e, strings.ReplaceAll_cons_of_not_startsWith _ _ _ _ (by simp)
                (by simp [startsWith_cons_cons, h2]),
              strings.ReplaceAll_cons_of_not_startsWith _ _ _ _ (by simp)
                (by rw [startsWith_cons_cons, starSourceOf_head]; simp), ih]
          simp [sourceOf, charSource, h1, h2, hc]
        · have hc' : regexp.special c = false := by simpa using hc
          have hb := ne_of_not_special c '\\' (by decide) hc'
          have e : starSourceOf (c :: s) = c :: starSourceOf s := by
            simp [starSourceOf, starSource, h1, hc']
          rw [e, strings.ReplaceAll_cons_of_not_startsWith _ _ _ _ (by simp)
                (by simp [startsWith_cons_cons, hb]), ih]
          simp [sourceOf, charSource, h1, h2, hc']

/-- The pattern text of `toRegExp`, character by character. -/
theorem toRegExpSource_eq (s : Str) : toRegExpSource s = sourceOf s := by
  have e1 : "\\*".toList = ['\\', '*'] := rfl
  have e2 : ".*".toList = ['.', '*'] := rfl
  have e3 : "\\?".toList = ['\\', '?'] := rfl
  have e4 : ".".toList = ['.'] := rfl
  simp only [toRegExpSource, e1, e2, e3, e4, ReplaceAll_QuoteMeta, ReplaceAll_starSourceOf]

theorem toksOf_head (s : Str) (rest : List regexp.Tok) :
    toksOf s ≠ regexp.Tok.starOp :: rest := by
  cases s with
  | nil => simp [toksOf]
  | cons c s =>
    by_cases h1 : c = '*'
    · simp [toksOf, charToks, h1]
    · by_cases h2 : c = '?'
      · simp [toksOf, charToks, h2]
      · simp [toksOf, charToks, h1, h2]

theorem lex_cons_escape (d : Char) (rest : Str) (h : regexp.special d = true) :
    regexp.lex ('\\' :: d :: rest) = (regexp.lex rest).map (regexp.Tok.atom (regexp.Atom.lit d) :: ·) := by
  rw [regexp.lex]
  simp [h]

theorem lex_cons_dot (rest : Str) :
    regexp.lex ('.' :: rest) = (regexp.lex rest).map (regexp.Tok.atom regexp.Atom.anyNotNL :: ·) := by
  rw [regexp.lex.eq_def]
  simp

theorem lex_cons_star (rest : Str) :
    regexp.lex ('*' :: rest) = (regexp.lex rest).map (regexp.Tok.starOp :: ·) := by
  rw [regexp.lex.eq_def]
  simp

theorem lex_cons_plain (c : Char) (rest : Str) (h : regexp.special c = false) :
    regexp.lex (c :: rest) = (regexp.lex rest).map (regexp.Tok.atom (regexp.Atom.lit c) :: ·) := by
  have hb := ne_of_not_special c '\\' (by decide) h
  have hd := ne_of_not_special c '.' (by decide) h
  have hs := ne_of_not_special c '*' (by decide) h
  rw [regexp.lex.eq_def]
  simp [hb, hd, hs, h]

theorem lex_sourceOf (s : Str) : regexp.lex (sourceOf s) = some (toksOf s) := by
  induction s with
  | nil => rfl
  | cons c s ih =>
    by_cases h1 : c = '*'
    · subst h1
      have e : sourceOf ('*' :: s) = '.' :: '*' :: sourceOf s := by
        simp [sourceOf, charSource]
      rw [e, lex_cons_dot, lex_cons_star, ih]
      simp [toksOf, charToks]
    · by_cases h2 : c = '?'
      · subst h2
        have e : sourceOf ('?' :: s) = '.' :: sourceOf s := by
          simp [sourceOf, charSource]
        rw [e, lex_cons_dot, ih]
        simp [toksOf, charToks]
      · by_cases hc : regexp.special c = true
        · have e : sourceOf (c :: s) = '\\' :: c :: sourceOf s := by
            simp [sourceOf, charSource, h1, h2, hc]
          rw [e, lex_cons_escape _ _ hc, ih]
          simp [toksOf, charToks, h1, h2]
        · have hc' : regexp.special c = false := by simpa using hc
          have e : sourceOf (c :: s) = c :: sourceOf s := by
            simp [sourceOf, charSource, h1, h2, hc']
          rw [e, lex_cons_plain _ _ hc', ih]
          simp [toksOf, charToks, h1, h2]

theorem build_atom_of_head (a : regexp.Atom) (rest : List regexp.Tok)
    (h : ∀ r, rest ≠ regexp.Tok.starOp :: r) :
    regexp.build (regexp.Tok.atom a :: rest)
      = (regexp.build rest).map (regexp.Piece.mk a false :: ·) := by
  cases rest with
  | nil => rfl
  | cons t r =>
    cases t with
    | atom b => rfl
    | starOp => exact absurd rfl (h r)

theorem build_star_of_head (a : regexp.Atom) (rest : List regexp.Tok)
    (h : ∀ r, rest ≠ regexp.Tok.starOp :: r) :
    regexp.build (regexp.Tok.atom a :: regexp.Tok.starOp :: rest)
      = (regexp.build rest).map (regexp.Piece.mk a true :: ·) := by
  cases rest with
  | nil => rfl
  | cons t r =>
    cases t with
    | atom b => rfl
    | starOp => exact absurd rfl (h r)

theorem build_toksOf (s : Str) : regexp.build (toksOf s) = some (s.map charPiece) := by
  induction s with
  | nil => rfl
  | cons c s ih =>
    by_cases h1 : c = '*'
    · subst h1
      have e : toksOf ('*' :: s)
          = regexp.Tok.atom regexp.Atom.anyNotNL :: regexp.Tok.starOp :: toksOf s := by
        simp [toksOf, charToks]
      rw [e, build_star_of_head _ _ (toksOf_head s), ih]
      simp [charPiece]
    · by_cases h2 : c = '?'
      · subst h2
        have e : toksOf ('?' :: s) = regexp.Tok.atom regexp.Atom.anyNotNL :: toksOf s := by
          simp [toksOf, charToks]
        rw [e, build_atom_of_head _ _ (toksOf_head s), ih]
        simp [charPiece]
      · have e : toksOf (c :: s) = regexp.Tok.atom (regexp.Atom.lit c) :: toksOf s := by
          simp [toksOf, charToks, h1, h2]
        rw [e, build_atom_of_head _ _ (toksOf_head s), ih]
        simp [charPiece, h1, h2]

/-- On valid UTF-8 text, and the size limit of package `regexp` apart, `toRegExp`
compiles its pattern; what it compiles. -/
theorem toRegExp_eq (s : Str) :
    toRegExp s = some { expr := sourceOf s, prog := s.map charPiece } := by
  simp [toRegExp, regexp.MustCompile, toRegExpSource_eq, lex_sourceOf, build_toksOf]

theorem matchPairs_eq (l : List (Str × Str)) :
    matchPairs l
      = some (l.all fun p => regexp.matchAnywhere (p.1.map charPiece) p.2) := by
  induction l with
  | nil => rfl
  | cons p l ih =>
    simp only [matchPairs, toRegExp_eq, regexp.Regexp.MatchString, List.all_cons]
    by_cases h : regexp.matchAnywhere (p.1.map charPiece) p.2 = true
    · simp [h, ih]
    · simp [h]

theorem SupersetOf_eq (c other : Components) :
    c.SupersetOf other
      = some ((pairs c other).all fun p => regexp.matchAnywhere (p.1.map charPiece) p.2) := by
  simp only [Components.SupersetOf, deepEqualValuePointer, matchPairs_eq]
  rfl

/-! ## Matching: the compiled pattern against the glob reading -/

theorem starLoop_of_cont (a : regexp.Atom) (k : Str → Bool) (cs : Str) (h : k cs = true) :
    regexp.starLoop a k cs = true := by
  cases cs with
  | nil => simpa [regexp.starLoop] using h
  | cons c cs => simp [regexp.starLoop, h]

theorem starLoop_append (a : regexp.Atom) (k : Str → Bool) (xs cs : Str)
    (hx : ∀ x ∈ xs, a.matchesChar x = true) (h : k cs = true) :
    regexp.starLoop a k (xs ++ cs) = true := by
  induction xs with
  | nil => exact starLoop_of_cont a k cs h
  | cons x xs ih =>
    have h1 : a.matchesChar x = true := hx x (by simp)
    have h2 := ih (fun y hy => hx y (by simp [hy]))
    simp [regexp.starLoop, h1, h2]

theorem starLoop_inv (a : regexp.Atom) (k : Str → Bool) (cs : Str)
    (h : regexp.starLoop a k cs = true) :
    ∃ xs rest, cs = xs ++ rest ∧ (∀ x ∈ xs, a.matchesChar x = true) ∧ k rest = true := by
  induction cs with
  | nil => exact ⟨[], [], rfl, by simp, by simpa [regexp.starLoop] using h⟩
  | cons c cs ih =>
    simp only [regexp.starLoop, Bool.or_eq_true, Bool.and_eq_true] at h
    rcases h with h | ⟨h1, h2⟩
    · exact ⟨[], c :: cs, rfl, by simp, h⟩
    · obtain ⟨xs, rest, e, hx, hk⟩ := ih h2
      refine ⟨c :: xs, rest, by simp [e], ?_, hk⟩
      intro x hxm
      rcases List.mem_cons.mp hxm with rfl | hxm
      · exact h1
      · exact hx x hxm

theorem globStar_append (k : Str → Bool) (xs cs : Str) (h : k cs = true) :
    globStar k (xs ++ cs) = true := by
  induction xs with
  | nil =>
    cases cs with
    | nil => simpa [globStar] using h
    | cons c cs => simp [globStar, h]
  | cons x xs ih => simp [globStar, ih]

theorem globStar_inv (k : Str → Bool) (cs : Str) (h : globStar k cs = true) :
    ∃ xs rest, cs = xs ++ rest ∧ k rest = true := by
  induction cs with
  | nil => exact ⟨[], [], rfl, by simpa [globStar] using h⟩
  | cons c cs ih =>
    simp only [globStar, Bool.or_eq_true] at h
    rcases h with h | h
    · exact ⟨[], c :: cs, rfl, h⟩
    · obtain ⟨xs, rest, e, hk⟩ := ih h
      exact ⟨c :: xs, rest, by simp [e], hk⟩

theorem matchHere_nil (cs : Str) : regexp.matchHere [] cs = true := rfl

theorem matchHere_star (a : regexp.Atom) (ps : List regexp.Piece) (cs : Str) :
    regexp.matchHere (⟨a, true⟩ :: ps) cs = regexp.starLoop a (regexp.matchHere ps) cs := by
  simp [regexp.matchHere]

theorem matchHere_one_nil (a : regexp.Atom) (ps : List regexp.Piece) :
    regexp.matchHere (⟨a, false⟩ :: ps) [] = false := by
  simp [regexp.matchHere]

theorem matchHere_one_cons (a : regexp.Atom) (ps : List regexp.Piece) (c : Char) (cs : Str) :
    regexp.matchHere (⟨a, false⟩ :: ps) (c :: cs)
      = (a.matchesChar c && regexp.matchHere ps cs) := by
  simp [regexp.matchHere]

theorem globMatch_star (ps cs : Str) :
    globMatch ('*' :: ps) cs = globStar (globMatch ps) cs := by
  simp [globMatch]

theorem globMatch_quest_cons (ps : Str) (c : Char) (cs : Str) :
    globMatch ('?' :: ps) (c :: cs) = globMatch ps cs := by
  simp [globMatch]

theorem globMatch_quest_nil (ps : Str) : globMatch ('?' :: ps) [] = false := by
  simp [globMatch]

theorem globMatch_lit_cons (p : Char) (ps : Str) (c : Char) (cs : Str)
    (h1 : p ≠ '*') (h2 : p ≠ '?') :
    globMatch (p :: ps) (c :: cs) = (decide (c = p) && globMatch ps cs) := by
  simp [globMatch, h1, h2]

theorem globMatch_lit_nil (p : Char) (ps : Str) (h1 : p ≠ '*') (h2 : p ≠ '?') :
    globMatch (p :: ps) [] = false := by
  simp [globMatch, h1, h2]

theorem charPiece_star : charPiece '*' = ⟨regexp.Atom.anyNotNL, true⟩ := by
  simp [charPiece]

theorem charPiece_quest : charPiece '?' = ⟨regexp.Atom.anyNotNL, false⟩ := by
  simp [charPiece]

theorem charPiece_lit (c : Char) (h1 : c ≠ '*') (h2 : c ≠ '?') :
    charPiece c = ⟨regexp.Atom.lit c, false⟩ := by
  simp [charPiece, h1, h2]

/-- The pattern compiled from `s` matches at the start of any text that begins
with `s`. -/
theorem matchHere_self_append (s t : Str) :
    regexp.matchHere (s.map charPiece) (s ++ t) = true := by
  induction s with
  | nil => rfl
  | cons c s ih =>
    by_cases h1 : c = '*'
    · subst h1
      rw [List.map_cons, charPiece_star, matchHere_star]
      have : regexp.starLoop regexp.Atom.anyNotNL (regexp.matchHere (s.map charPiece))
          (['*'] ++ (s ++ t)) = true :=
        starLoop_append _ _ ['*'] (s ++ t) (by decide) ih
      simpa using this
    · by_cases h2 : c = '?'
      · subst h2
        rw [List.map_cons, charPiece_quest, List.cons_append, matchHere_one_cons, ih]
        decide
      · rw [List.map_cons, charPiece_lit c h1 h2, List.cons_append, matchHere_one_cons, ih]
        simp [regexp.Atom.matchesChar]

theorem matchAnywhere_of_matchHere (ps : List regexp.Piece) (pre rest : Str)
    (h : regexp.matchHere ps rest = true) : regexp.matchAnywhere ps (pre ++ rest) = true := by
  induction pre with
  | nil =>
    cases rest with
    | nil => simpa [regexp.matchAnywhere] using h
    | cons c cs => simp [regexp.matchAnywhere, h]
  | cons x pre ih => simp [regexp.matchAnywhere, ih]

theorem matchAnywhere_inv (ps : List regexp.Piece) (cs : Str)
    (h : regexp.matchAnywhere ps cs = true) :
    ∃ pre rest, cs = pre ++ rest ∧ regexp.matchHere ps rest = true := by
  induction cs with
  | nil => exact ⟨[], [], rfl, by simpa [regexp.matchAnywhere] using h⟩
  | cons c cs ih =>
    simp only [regexp.matchAnywhere, Bool.or_eq_true] at h
    rcases h with h | h
    · exact ⟨[], c :: cs, rfl, h⟩
    · obtain ⟨pre, rest, e, hk⟩ := ih h
      exact ⟨c :: pre, rest, by simp [e], hk⟩

/-- A match of the compiled pattern at the start of a text is a glob match of an
initial segment of the text. -/
theorem glob_of_matchHere (s : Str) : ∀ cs : Str,
    regexp.matchHere (s.map charPiece) cs = true →
    ∃ mid post, cs = mid ++ post ∧ globMatch s mid = true := by
  induction s with
  | nil => intro cs _; exact ⟨[], cs, rfl, rfl⟩
  | cons c s ih =>
    intro cs h
    by_cases h1 : c = '*'
    · subst h1
      rw [List.map_cons, charPiece_star, matchHere_star] at h
      obtain ⟨xs, rest, e, _, hk⟩ := starLoop_inv _ _ _ h
      obtain ⟨mid, post, e', hg⟩ := ih rest hk
      refine ⟨xs ++ mid, post, by simp [e, e'], ?_⟩
      rw [globMatch_star]
      exact globStar_append _ xs mid hg
    · by_cases h2 : c = '?'
      · subst h2
        rw [List.map_cons, charPiece_quest] at h
        cases cs with
        | nil => rw [matchHere_one_nil] at h; exact Bool.noConfusion h
        | cons d cs =>
          rw [matchHere_one_cons, Bool.and_eq_true] at h
          obtain ⟨mid, post, e', hg⟩ := ih cs h.2
          exact ⟨d :: mid, post, by simp [e'], by rw [globMatch_quest_cons]; exact hg⟩
      · rw [List.map_cons, charPiece_lit c h1 h2] at h
        cases cs with
        | nil => rw [matchHere_one_nil] at h; exact Bool.noConfusion h
        | cons d cs =>
          rw [matchHere_one_cons, Bool.and_eq_true] at h
          obtain ⟨mid, post, e', hg⟩ := ih cs h.2
          have hd : d = c := by simpa [regexp.Atom.matchesChar] using h.1
          refine ⟨d :: mid, post, by simp [e'], ?_⟩
          rw [globMatch_lit_cons c s d mid h1 h2, hg, hd]
          simp

/-- A glob match of a text without newline is a match of the compiled pattern at
the start of the text, whatever follows it. -/
theorem matchHere_of_glob (s : Str) : ∀ cs post : Str,
    globMatch s cs = true → '\n' ∉ cs →
    regexp.matchHere (s.map charPiece) (cs ++ post) = true := by
  induction s with
  | nil => intro cs post _ _; rfl
  | cons c s ih =>
    intro cs post h hnl
    by_cases h1 : c = '*'
    · subst h1
      rw [globMatch_star] at h
      obtain ⟨xs, rest, e, hk⟩ := globStar_inv _ _ h
      subst e
      rw [List.map_cons, charPiece_star, matchHere_star, List.append_assoc]
      refine starLoop_append _ _ xs (rest ++ post) ?_ (ih rest post hk ?_)
      · intro x hx
        have : x ≠ '\n' := fun e => hnl (by rw [← e]; simp [hx])
        simp [regexp.Atom.matchesChar, this]
      · exact fun e => hnl (by simp [e])
    · by_cases h2 : c = '?'
      · subst h2
        cases cs with
        | nil => rw [globMatch_quest_nil] at h; exact Bool.noConfusion h
        | cons d cs =>
          rw [globMatch_quest_cons] at h
          have hd : d ≠ '\n' := fun e => hnl (by simp [e])
          rw [List.map_cons, charPiece_quest, List.cons_append, matchHere_one_cons,
            ih cs post h (fun e => hnl (by simp [e]))]
          simp [regexp.Atom.matchesChar, hd]
      · cases cs with
        | nil => rw [globMatch_lit_nil c s h1 h2] at h; exact Bool.noConfusion h
        | cons d cs =>
          rw [globMatch_lit_cons c s d cs h1 h2, Bool.and_eq_true] at h
          have hd : d = c := by simpa using h.1
          rw [List.map_cons, charPiece_lit c h1 h2, List.cons_append, matchHere_one_cons,
            ih cs post h.2 (fun e => hnl (by simp [e]))]
          simp [regexp.Atom.matchesChar, hd]

/-- Without wildcards a glob matches only itself. -/
theorem globMatch_literal (s : Str) (hs : '*' ∉ s) (hq : '?' ∉ s) : ∀ cs : Str,
    globMatch s cs = true → cs = s := by
  induction s with
  | nil =>
    intro cs h
    cases cs with
    | nil => rfl
    | cons c cs => simp [globMatch] at h
  | cons c s ih =>
    intro cs h
    have h1 : c ≠ '*' := fun e => hs (by simp [e])
    have h2 : c ≠ '?' := fun e => hq (by simp [e])
    cases cs with
    | nil => rw [globMatch_lit_nil c s h1 h2] at h; exact Bool.noConfusion h
    | cons d cs =>
      rw [globMatch_lit_cons c s d cs h1 h2, Bool.and_eq_true] at h
      have hd : d = c := by simpa using h.1
      rw [hd, ih (fun e => hs (by simp [e])) (fun e => hq (by simp [e])) cs h.2]

theorem matchAnywhere_self (a : Str) : regexp.matchAnywhere (a.map charPiece) a = true := by
  have h := matchAnywhere_of_matchHere (a.map charPiece) [] (a ++ []) (matchHere_self_append a [])
  simpa using h

theorem SupersetOf_eq_true_iff (p c : Components) :
    p.SupersetOf c = some true ↔
      regexp.matchAnywhere (p.ARN.map charPiece) c.ARN = true ∧
      regexp.matchAnywhere (p.Partition.map charPiece) c.Partition = true ∧
      regexp.matchAnywhere (p.Service.map charPiece) c.Service = true ∧
      regexp.matchAnywhere (p.Region.map charPiece) c.Region = true ∧
      regexp.matchAnywhere (p.AccountID.map charPiece) c.AccountID = true ∧
      regexp.matchAnywhere (p.ResourceChunk.map charPiece) c.ResourceChunk = true := by
  rw [SupersetOf_eq]
  simp [pairs, and_assoc]

theorem part_matches_of_matchAnywhere (a b : Str)
    (h : regexp.matchAnywhere (a.map charPiece) b = true) :
    (∃ pre mid post, b = pre ++ mid ++ post ∧ globMatch a mid = true) ∧
    ('*' ∉ a → '?' ∉ a → a <:+: b) := by
  obtain ⟨pre, rest, e, hm⟩ := matchAnywhere_inv _ _ h
  obtain ⟨mid, post, e', hg⟩ := glob_of_matchHere a rest hm
  refine ⟨⟨pre, mid, post, by rw [e, e', List.append_assoc], hg⟩, ?_⟩
  intro hs hq
  have := globMatch_literal a hs hq mid hg
  subst this
  exact ⟨pre, post, by rw [e, e', List.append_assoc]⟩

theorem matchAnywhere_of_glob (a b : Str) (h : globMatch a b = true) (hnl : '\n' ∉ b) :
    regexp.matchAnywhere (a.map charPiece) b = true := by
  have h1 := matchHere_of_glob a b [] h hnl
  have h2 := matchAnywhere_of_matchHere (a.map charPiece) [] (b ++ []) h1
  simpa using h2

/-! ## The pattern text, as the specification words it -/

theorem special_iff (c : Char) :
    regexp.special c = true ↔ c = '*' ∨ c = '?' ∨ c ∈ otherMetacharacters := by
  have e : "\\.+*?()|[]\x7b\x7d^$".toList
      = ['\\', '.', '+', '*', '?', '(', ')', '|', '[', ']', '\x7b', '\x7d', '^', '$'] := rfl
  unfold regexp.special otherMetacharacters
  rw [e, List.contains, List.elem_iff]
  simp only [List.mem_cons, List.mem_singleton, List.not_mem_nil, or_false]
  tauto

theorem charSource_eq_spec (c : Char) : charSource c = specCharSource c := by
  unfold charSource specCharSource
  by_cases h1 : c = '*'
  · simp [h1]
  · by_cases h2 : c = '?'
    · simp [h2]
    · by_cases h3 : c ∈ otherMetacharacters
      · have : regexp.special c = true := (special_iff c).mpr (Or.inr (Or.inr h3))
        simp [h1, h2, h3, this]
      · have : regexp.special c = false := by
          cases hs : regexp.special c with
          | false => rfl
          | true =>
            rcases (special_iff c).mp hs with h | h | h
            · exact absurd h h1
            · exact absurd h h2
            · exact absurd h h3
        simp [h1, h2, h3, this]

theorem sourceOf_eq_spec (s : Str) : sourceOf s = specSource s := by
  induction s with
  | nil => rfl
  | cons c s ih => simp [sourceOf, specSource, ih, charSource_eq_spec]

/-! ## Literal characters, and the round trip as a shared fact -/

theorem literalChars_star (a : Str) : literalChars ('*' :: a) = literalChars a := by
  simp [literalChars]

theorem literalChars_quest (a : Str) : literalChars ('?' :: a) = literalChars a := by
  simp [literalChars]

theorem literalChars_lit (c : Char) (a : Str) (h1 : c ≠ '*') (h2 : c ≠ '?') :
    literalChars (c :: a) = c :: literalChars a := by
  simp [literalChars, h1, h2]

theorem mem_literalChars (c : Char) (a : Str) (h : c ∈ a) (h1 : c ≠ '*') (h2 : c ≠ '?') :
    c ∈ literalChars a := by
  simp [literalChars, h, h1, h2]

/-- The literal characters of a glob are a subsequence of any text it matches. -/
theorem literalChars_sublist_of_glob (a : Str) : ∀ mid : Str,
    globMatch a mid = true → List.Sublist (literalChars a) mid := by
  induction a with
  | nil => intro mid _; exact List.nil_sublist mid
  | cons c a ih =>
    intro mid h
    by_cases h1 : c = '*'
    · subst h1
      rw [globMatch_star] at h
      obtain ⟨xs, rest, e, hk⟩ := globStar_inv _ _ h
      rw [literalChars_star, e]
      exact List.sublist_append_of_sublist_right (ih rest hk)
    · by_cases h2 : c = '?'
      · subst h2
        cases mid with
        | nil => rw [globMatch_quest_nil] at h; exact Bool.noConfusion h
        | cons d cs =>
          rw [globMatch_quest_cons] at h
          rw [literalChars_quest]
          exact (ih cs h).cons d
      · cases mid with
        | nil => rw [globMatch_lit_nil c a h1 h2] at h; exact Bool.noConfusion h
        | cons d cs =>
          rw [globMatch_lit_cons c a d cs h1 h2, Bool.and_eq_true] at h
          have hd : d = c := by simpa using h.1
          rw [literalChars_lit c a h1 h2, hd]
          exact (ih cs h.2).cons₂ c

theorem literalChars_sublist_of_matchAnywhere (a b : Str)
    (h : regexp.matchAnywhere (a.map charPiece) b = true) :
    List.Sublist (literalChars a) b := by
  obtain ⟨⟨pre, mid, post, e, hg⟩, _⟩ := part_matches_of_matchAnywhere a b h
  rw [e]
  exact List.sublist_append_of_sublist_left
    (List.sublist_append_of_sublist_right (literalChars_sublist_of_glob a mid hg))

theorem SupersetOf_eq_false_of_ne_true (p c : Components) (h : p.SupersetOf c ≠ some true) :
    p.SupersetOf c = some false := by
  rw [SupersetOf_eq] at h ⊢
  cases hb : (pairs p c).all fun q => regexp.matchAnywhere (q.1.map charPiece) q.2 with
  | true => rw [hb] at h; exact absurd rfl h
  | false => rfl

/-- On success the serialised components are the input again. -/
theorem String_of_Parse_ok (s : Str) (c : Components) (h : Parse s = some (some c, none)) :
    c.String = s := by
  obtain ⟨_, _, _, _, _, _, _, rest, hs, hsh⟩ := Parse_ok_inv s c h
  have hchunk := SuffixShape_chunk rest c hsh
  rw [hs, ← hchunk]
  simp [Components.String, strings.Join, colon_toList]

/-! ## Carrying a match from one text over to another -/

theorem matchThen_star (a : regexp.Atom) (ps : List regexp.Piece) (k : Str → Bool) (cs : Str) :
    matchThen (⟨a, true⟩ :: ps) k cs = regexp.starLoop a (matchThen ps k) cs := by
  simp [matchThen]

theorem matchThen_one_nil (a : regexp.Atom) (ps : List regexp.Piece) (k : Str → Bool) :
    matchThen (⟨a, false⟩ :: ps) k [] = false := by
  simp [matchThen]

theorem matchThen_one_cons (a : regexp.Atom) (ps : List regexp.Piece) (k : Str → Bool)
    (c : Char) (cs : Str) :
    matchThen (⟨a, false⟩ :: ps) k (c :: cs) = (a.matchesChar c && matchThen ps k cs) := by
  simp [matchThen]

theorem matchHere_eq_matchThen (ps : List regexp.Piece) :
    regexp.matchHere ps = matchThen ps (fun _ => true) := by
  induction ps with
  | nil => rfl
  | cons p ps ih =>
    funext cs
    simp only [regexp.matchHere, matchThen, ih]

theorem matchThen_append (ps qs : List regexp.Piece) (k : Str → Bool) :
    matchThen (ps ++ qs) k = matchThen ps (matchThen qs k) := by
  induction ps with
  | nil => rfl
  | cons p ps ih =>
    funext cs
    show matchThen (p :: (ps ++ qs)) k cs = matchThen (p :: ps) (matchThen qs k) cs
    simp only [matchThen, ih]

/-- A match followed by `k` splits the text into a part that matches the pieces as
a whole and a rest that `k` accepts. -/
theorem matchThen_inv (ps : List regexp.Piece) (k : Str → Bool) : ∀ t : Str,
    matchThen ps k t = true →
    ∃ m t', t = m ++ t' ∧ matchThen ps (fun cs => cs.isEmpty) m = true ∧ k t' = true := by
  induction ps with
  | nil => intro t h; exact ⟨[], t, rfl, rfl, h⟩
  | cons p ps ih =>
    intro t h
    obtain ⟨a, st⟩ := p
    cases st with
    | true =>
      rw [matchThen_star] at h
      obtain ⟨us, r, e, hus, hk⟩ := starLoop_inv _ _ _ h
      obtain ⟨m, t', e', hm, hk'⟩ := ih r hk
      refine ⟨us ++ m, t', by rw [e, e', List.append_assoc], ?_, hk'⟩
      rw [matchThen_star]
      exact starLoop_append _ _ us m hus hm
    | false =>
      cases t with
      | nil => rw [matchThen_one_nil] at h; exact Bool.noConfusion h
      | cons c cs =>
        rw [matchThen_one_cons, Bool.and_eq_true] at h
        obtain ⟨m, t', e', hm, hk'⟩ := ih cs h.2
        refine ⟨c :: m, t', by rw [e']; rfl, ?_, hk'⟩
        rw [matchThen_one_cons, h.1, hm]
        rfl

/-- Whatever a pattern without newline matches as a whole has no newline. -/
theorem notNL_of_matchThen (g : Str) (hg : ∀ x ∈ g, regexp.Atom.anyNotNL.matchesChar x = true) :
    ∀ m : Str, matchThen (g.map charPiece) (fun cs => cs.isEmpty) m = true →
    ∀ y ∈ m, regexp.Atom.anyNotNL.matchesChar y = true := by
  induction g with
  | nil =>
    intro m h y hy
    cases m with
    | nil => simp at hy
    | cons c cs => simp [matchThen] at h
  | cons x g ih =>
    intro m h
    have hx : regexp.Atom.anyNotNL.matchesChar x = true := hg x (by simp)
    have hg' : ∀ z ∈ g, regexp.Atom.anyNotNL.matchesChar z = true :=
      fun z hz => hg z (by simp [hz])
    by_cases h1 : x = '*'
    · subst h1
      rw [List.map_cons, charPiece_star, matchThen_star] at h
      obtain ⟨us, r, e, hus, hk⟩ := starLoop_inv _ _ _ h
      intro y hy
      rw [e] at hy
      rcases List.mem_append.mp hy with hy | hy
      · exact hus y hy
      · exact ih hg' r hk y hy
    · by_cases h2 : x = '?'
      · subst h2
        rw [List.map_cons, charPiece_quest] at h
        cases m with
        | nil => rw [matchThen_one_nil] at h; exact Bool.noConfusion h
        | cons c cs =>
          rw [matchThen_one_cons, Bool.and_eq_true] at h
          intro y hy
          rcases List.mem_cons.mp hy with rfl | hy
          · exact h.1
          · exact ih hg' cs h.2 y hy
      · rw [List.map_cons, charPiece_lit x h1 h2] at h
        cases m with
        | nil => rw [matchThen_one_nil] at h; exact Bool.noConfusion h
        | cons c cs =>
          rw [matchThen_one_cons, Bool.and_eq_true] at h
          have hc : c = x := by simpa [regexp.Atom.matchesChar] using h.1
          intro y hy
          rcases List.mem_cons.mp hy with rfl | hy
          · rw [hc]; exact hx
          · exact ih hg' cs h.2 y hy

theorem matchAvoidingStar_star (ps cs : Str) :
    matchAvoidingStar ('*' :: ps) cs
      = regexp.starLoop regexp.Atom.anyNotNL (matchAvoidingStar ps) cs := by
  simp [matchAvoidingStar]

theorem matchAvoidingStar_quest_nil (ps : Str) : matchAvoidingStar ('?' :: ps) [] = false := by
  simp [matchAvoidingStar]

theorem matchAvoidingStar_quest_cons (ps : Str) (c : Char) (cs : Str) :
    matchAvoidingStar ('?' :: ps) (c :: cs)
      = (decide (c ≠ '\n') && decide (c ≠ '*') && matchAvoidingStar ps cs) := by
  simp [matchAvoidingStar]

theorem matchAvoidingStar_lit_nil (p : Char) (ps : Str) (h1 : p ≠ '*') (h2 : p ≠ '?') :
    matchAvoidingStar (p :: ps) [] = false := by
  simp [matchAvoidingStar, h1, h2]

theorem matchAvoidingStar_lit_cons (p : Char) (ps : Str) (c : Char) (cs : Str)
    (h1 : p ≠ '*') (h2 : p ≠ '?') :
    matchAvoidingStar (p :: ps) (c :: cs) = (decide (c = p) && matchAvoidingStar ps cs) := by
  simp [matchAvoidingStar, h1, h2]

/-- The core of transitivity: if the pattern `a` matches the text `xs` with no `?`
against a `*`, and the pattern compiled from `xs` matches `m` as a whole, then the
pattern compiled from `a` matches at the start of `m` followed by anything. -/
theorem matchHere_through (a : Str) : ∀ xs m post : Str,
    matchAvoidingStar a xs = true →
    matchThen (xs.map charPiece) (fun cs => cs.isEmpty) m = true →
    regexp.matchHere (a.map charPiece) (m ++ post) = true := by
  induction a with
  | nil => intro xs m post _ _; rfl
  | cons c a ih =>
    intro xs m post ha hm
    by_cases h1 : c = '*'
    · subst h1
      rw [matchAvoidingStar_star] at ha
      obtain ⟨g, xs', e, hg, hk⟩ := starLoop_inv _ _ _ ha
      subst e
      rw [List.map_append, matchThen_append] at hm
      obtain ⟨m1, m2, e, hm1, hm2⟩ := matchThen_inv _ _ _ hm
      subst e
      rw [List.map_cons, charPiece_star, matchHere_star, List.append_assoc]
      exact starLoop_append _ _ m1 (m2 ++ post) (notNL_of_matchThen g hg m1 hm1)
        (ih xs' m2 post hk hm2)
    · by_cases h2 : c = '?'
      · subst h2
        cases xs with
        | nil => rw [matchAvoidingStar_quest_nil] at ha; exact Bool.noConfusion ha
        | cons x xs =>
          rw [matchAvoidingStar_quest_cons, Bool.and_eq_true, Bool.and_eq_true] at ha
          obtain ⟨⟨hx1, hx2⟩, hrest⟩ := ha
          have hx1' : x ≠ '\n' := by simpa using hx1
          have hx2' : x ≠ '*' := by simpa using hx2
          have hy : ∃ y m', m = y :: m' ∧ y ≠ '\n' ∧
              matchThen (xs.map charPiece) (fun cs => cs.isEmpty) m' = true := by
            by_cases hq : x = '?'
            · subst hq
              rw [List.map_cons, charPiece_quest] at hm
              cases m with
              | nil => rw [matchThen_one_nil] at hm; exact Bool.noConfusion hm
              | cons y m' =>
                rw [matchThen_one_cons, Bool.and_eq_true] at hm
                exact ⟨y, m', rfl, by simpa [regexp.Atom.matchesChar] using hm.1, hm.2⟩
            · rw [List.map_cons, charPiece_lit x hx2' hq] at hm
              cases m with
              | nil => rw [matchThen_one_nil] at hm; exact Bool.noConfusion hm
              | cons y m' =>
                rw [matchThen_one_cons, Bool.and_eq_true] at hm
                have : y = x := by simpa [regexp.Atom.matchesChar] using hm.1
                exact ⟨y, m', rfl, by rw [this]; exact hx1', hm.2⟩
          obtain ⟨y, m', rfl, hy1, hm'⟩ := hy
          rw [List.map_cons, charPiece_quest, List.cons_append, matchHere_one_cons,
            ih xs m' post hrest hm']
          simp [regexp.Atom.matchesChar, hy1]
      · cases xs with
        | nil => rw [matchAvoidingStar_lit_nil c a h1 h2] at ha; exact Bool.noConfusion ha
        | cons x xs =>
          rw [matchAvoidingStar_lit_cons c a x xs h1 h2, Bool.and_eq_true] at ha
          have hx : x = c := by simpa using ha.1
          subst hx
          rw [List.map_cons, charPiece_lit x h1 h2] at hm
          cases m with
          | nil => rw [matchThen_one_nil] at hm; exact Bool.noConfusion hm
          | cons y m' =>
            rw [matchThen_one_cons, Bool.and_eq_true] at hm
            have hy : y = x := by simpa [regexp.Atom.matchesChar] using hm.1
            rw [List.map_cons, charPiece_lit x h1 h2, List.cons_append, matchHere_one_cons,
              ih xs m' post ha.2 hm.2]
            simp [regexp.Atom.matchesChar, hy]

/-- A match with no `?` against a `*` is a match of the compiled pattern. -/
theorem matchHere_of_matchAvoidingStar (a : Str) : ∀ mid post : Str,
    matchAvoidingStar a mid = true →
    regexp.matchHere (a.map charPiece) (mid ++ post) = true := by
  induction a with
  | nil => intro mid post _; rfl
  | cons c a ih =>
    intro mid post h
    by_cases h1 : c = '*'
    · subst h1
      rw [matchAvoidingStar_star] at h
      obtain ⟨g, mid', e, hg, hk⟩ := starLoop_inv _ _ _ h
      subst e
      rw [List.map_cons, charPiece_star, matchHere_star, List.append_assoc]
      exact starLoop_append _ _ g (mid' ++ post) hg (ih mid' post hk)
    · by_cases h2 : c = '?'
      · subst h2
        cases mid with
        | nil => rw [matchAvoidingStar_quest_nil] at h; exact Bool.noConfusion h
        | cons x xs =>
          rw [matchAvoidingStar_quest_cons, Bool.and_eq_true, Bool.and_eq_true] at h
          have hx1 : x ≠ '\n' := by simpa using h.1.1
          rw [List.map_cons, charPiece_quest, List.cons_append, matchHere_one_cons,
            ih xs post h.2]
          simp [regexp.Atom.matchesChar, hx1]
      · cases mid with
        | nil => rw [matchAvoidingStar_lit_nil c a h1 h2] at h; exact Bool.noConfusion h
        | cons x xs =>
          rw [matchAvoidingStar_lit_cons c a x xs h1 h2, Bool.and_eq_true] at h
          have hx : x = c := by simpa using h.1
          rw [List.map_cons, charPiece_lit c h1 h2, List.cons_append, matchHere_one_cons,
            ih xs post h.2]
          simp [regexp.Atom.matchesChar, hx]

/-- A match of the compiled pattern avoids `?` against `*` as soon as the pattern
has no `?` or the text has no `*`. -/
theorem matchAvoidingStar_of_matchHere (a : Str) : ∀ t : Str,
    ('?' ∉ a ∨ '*' ∉ t) → regexp.matchHere (a.map charPiece) t = true →
    ∃ mid post, t = mid ++ post ∧ matchAvoidingStar a mid = true := by
  induction a with
  | nil => intro t _ _; exact ⟨[], t, rfl, rfl⟩
  | cons c a ih =>
    intro t hd h
    by_cases h1 : c = '*'
    · subst h1
      rw [List.map_cons, charPiece_star, matchHere_star] at h
      obtain ⟨us, r, e, hus, hk⟩ := starLoop_inv _ _ _ h
      subst e
      have hd' : '?' ∉ a ∨ '*' ∉ r := by
        rcases hd with hd | hd
        · exact Or.inl (fun hm => hd (by simp [hm]))
        · exact Or.inr (fun hm => hd (by simp [hm]))
      obtain ⟨mid, post, e', hm⟩ := ih r hd' hk
      refine ⟨us ++ mid, post, by rw [e', List.append_assoc], ?_⟩
      rw [matchAvoidingStar_star]
      exact starLoop_append _ _ us mid hus hm
    · by_cases h2 : c = '?'
      · subst h2
        rw [List.map_cons, charPiece_quest] at h
        cases t with
        | nil => rw [matchHere_one_nil] at h; exact Bool.noConfusion h
        | cons x xs =>
          rw [matchHere_one_cons, Bool.and_eq_true] at h
          have hstar : '*' ∉ x :: xs := by
            rcases hd with hd | hd
            · exact absurd (by simp) hd
            · exact hd
          have hx1 : x ≠ '\n' := by simpa [regexp.Atom.matchesChar] using h.1
          have hx2 : x ≠ '*' := fun e => hstar (by simp [e])
          obtain ⟨mid, post, e', hm⟩ := ih xs (Or.inr (fun hm => hstar (by simp [hm]))) h.2
          refine ⟨x :: mid, post, by rw [e']; rfl, ?_⟩
          rw [matchAvoidingStar_quest_cons, hm]
          simp [hx1, hx2]
      · rw [List.map_cons, charPiece_lit c h1 h2] at h
        cases t with
        | nil => rw [matchHere_one_nil] at h; exact Bool.noConfusion h
        | cons x xs =>
          rw [matchHere_one_cons, Bool.and_eq_true] at h
          have hx : x = c := by simpa [regexp.Atom.matchesChar] using h.1
          have hd' : '?' ∉ a ∨ '*' ∉ xs := by
            rcases hd with hd | hd
            · exact Or.inl (fun hm => hd (by simp [hm]))
            · exact Or.inr (fun hm => hd (by simp [hm]))
          obtain ⟨mid, post, e', hm⟩ := ih xs hd' h.2
          refine ⟨x :: mid, post, by rw [e']; rfl, ?_⟩
          rw [matchAvoidingStar_lit_cons c a x mid h1 h2, hm, hx]
          simp

/-- Transitivity in one slot. -/
theorem matchAnywhere_through (x y z : Str)
    (hxy : ∃ pre mid post, y = pre ++ mid ++ post ∧ matchAvoidingStar x mid = true)
    (hyz : regexp.matchAnywhere (y.map charPiece) z = true) :
    regexp.matchAnywhere (x.map charPiece) z = true := by
  obtain ⟨pre, mid, post, e, hx⟩ := hxy
  obtain ⟨pz, rest, ez, hm⟩ := matchAnywhere_inv _ _ hyz
  rw [e, List.map_append, List.map_append, matchHere_eq_matchThen, List.append_assoc,
    matchThen_append, matchThen_append] at hm
  obtain ⟨m1, t1, e1, _, h1⟩ := matchThen_inv _ _ _ hm
  obtain ⟨m2, t2, e2, h2, _⟩ := matchThen_inv _ _ _ h1
  have := matchAnywhere_of_matchHere (x.map charPiece) (pz ++ m1) (m2 ++ t2)
    (matchHere_through x mid m2 t2 hx h2)
  rw [ez, e1, e2]
  simpa [List.append_assoc] using this

theorem matchAnywhere_of_avoiding (x y : Str)
    (hxy : ∃ pre mid post, y = pre ++ mid ++ post ∧ matchAvoidingStar x mid = true) :
    regexp.matchAnywhere (x.map charPiece) y = true := by
  obtain ⟨pre, mid, post, e, hx⟩ := hxy
  rw [e, List.append_assoc]
  exact matchAnywhere_of_matchHere _ pre (mid ++ post)
    (matchHere_of_matchAvoidingStar x mid post hx)

theorem avoiding_of_matchAnywhere (x y : Str) (hd : '?' ∉ x ∨ '*' ∉ y)
    (h : regexp.matchAnywhere (x.map charPiece) y = true) :
    ∃ pre mid post, y = pre ++ mid ++ post ∧ matchAvoidingStar x mid = true := by
  obtain ⟨pre, t, e, hm⟩ := matchAnywhere_inv _ _ h
  have hd' : '?' ∉ x ∨ '*' ∉ t := by
    rcases hd with hd | hd
    · exact Or.inl hd
    · exact Or.inr (fun hm' => hd (by rw [e]; simp [hm']))
  obtain ⟨mid, post, e', ha⟩ := matchAvoidingStar_of_matchHere x t hd' hm
  exact ⟨pre, mid, post, by rw [e, e', List.append_assoc], ha⟩

/-! ## When the resource is empty -/

theorem first_cut_unique (c : Char) : ∀ (t t' r r' : Str), c ∉ t → c ∉ t' →
    t ++ c :: r = t' ++ c :: r' → t = t' ∧ r = r' := by
  intro t
  induction t with
  | nil =>
    intro t' r r' _ h' e
    cases t' with
    | nil => simpa using e
    | cons d t' =>
      simp only [List.nil_append, List.cons_append, List.cons.injEq] at e
      exact absurd (by simp [e.1]) h'
  | cons d t ih =>
    intro t' r r' h h' e
    cases t' with
    | nil =>
      simp only [List.nil_append, List.cons_append, List.cons.injEq] at e
      exact absurd (by simp [e.1]) h
    | cons d' t' =>
      simp only [List.cons_append, List.cons.injEq] at e
      obtain ⟨e1, e2⟩ := ih t' r r' (fun hm => h (by simp [hm])) (fun hm => h' (by simp [hm])) e.2
      exact ⟨by rw [e.1, e1], e2⟩

/-- When the resource is empty, in terms of the suffix alone. -/
theorem SuffixShape_resource_empty_iff (rest : Str) (c : Components) (h : SuffixShape rest c) :
    c.Resource = [] ↔
      rest = [] ∨ (∃ t, ':' ∉ t ∧ rest = t ++ [':']) ∨
      (∃ t, ':' ∉ t ∧ '/' ∉ t ∧ rest = t ++ ['/']) := by
  rcases h with ⟨t, r, ht, e, _, h2, _⟩ | ⟨hc, t, r, ht, e, _, h2, _⟩ | ⟨hc, hs, _, h2, _⟩
  · rw [h2]
    constructor
    · intro hr; subst hr; exact Or.inr (Or.inl ⟨t, ht, e⟩)
    · rintro (h0 | ⟨t', ht', e'⟩ | ⟨t', ht', _, e'⟩)
      · rw [h0] at e; simp at e
      · rw [e] at e'
        exact (first_cut_unique ':' t t' r [] ht ht' e').2
      · exfalso
        rw [e'] at e
        have : ':' ∈ t' ++ ['/'] := by rw [e]; simp
        rcases List.mem_append.mp this with hm | hm
        · exact ht' hm
        · simp at hm
  · rw [h2]
    have htc : ':' ∉ t := fun hm => hc (by rw [e]; simp [hm])
    constructor
    · intro hr; subst hr; exact Or.inr (Or.inr ⟨t, htc, ht, e⟩)
    · rintro (h0 | ⟨t', _, e'⟩ | ⟨t', _, ht', e'⟩)
      · rw [h0] at e; simp at e
      · exact absurd (by rw [e']; simp) hc
      · rw [e] at e'
        exact (first_cut_unique '/' t t' r [] ht ht' e').2
  · rw [h2]
    constructor
    · intro hr; exact Or.inl hr
    · rintro (h0 | ⟨t', _, e'⟩ | ⟨t', _, _, e'⟩)
      · exact h0
      · exact absurd (by rw [e']; simp) hc
      · exact absurd (by rw [e']; simp) hs

/-! ## Reflexivity and prefix extension on text that compiles -/

/-- Reflexivity on the regexp path, for fields that are valid UTF-8 text and that
package `regexp` compiles (the strings of the code-point model): `x.SupersetOf(x)`
returns true, and so does `x.SupersetOf(y)` for field-for-field equal `x` and `y`. -/
theorem SupersetOf_reflexive :
    (∀ x : Components, x.SupersetOf x = some true) ∧
    (∀ x y : Components,
      x.ARN = y.ARN → x.Partition = y.Partition → x.Service = y.Service →
      x.Region = y.Region → x.AccountID = y.AccountID →
      x.ResourceType = y.ResourceType → x.Resource = y.Resource →
      x.ResourceDelimiter = y.ResourceDelimiter → x.SupersetOf y = some true) := by
  have hrefl : ∀ x : Components, x.SupersetOf x = some true := by
    intro x
    rw [SupersetOf_eq_true_iff]
    exact ⟨matchAnywhere_self _, matchAnywhere_self _, matchAnywhere_self _,
      matchAnywhere_self _, matchAnywhere_self _, matchAnywhere_self _⟩
  refine ⟨hrefl, ?_⟩
  intro x y h1 h2 h3 h4 h5 h6 h7 h8
  have e : x = y := by
    cases x; cases y; simp_all
  rw [e]
  exact hrefl y

/-- Prefix extension on the regexp path, for fields that are valid UTF-8 text and
that package `regexp` compiles (the strings of the code-point model): with equal
five prefix fields, if `b.ResourceChunk()` starts with `a.ResourceChunk()` then
`a.SupersetOf(b)` returns true, whether or not `a` contains a wildcard. -/
theorem prefix_extension_is_covered (a b : Components)
    (h1 : a.ARN = b.ARN) (h2 : a.Partition = b.Partition) (h3 : a.Service = b.Service)
    (h4 : a.Region = b.Region) (h5 : a.AccountID = b.AccountID)
    (h6 : a.ResourceChunk <+: b.ResourceChunk) :
    a.SupersetOf b = some true := by
  obtain ⟨t, ht⟩ := h6
  rw [SupersetOf_eq_true_iff, ← h1, ← h2, ← h3, ← h4, ← h5, ← ht]
  refine ⟨matchAnywhere_self _, matchAnywhere_self _, matchAnywhere_self _,
    matchAnywhere_self _, matchAnywhere_self _, ?_⟩
  have := matchAnywhere_of_matchHere (a.ResourceChunk.map charPiece) []
    (a.ResourceChunk ++ t) (matchHere_self_append a.ResourceChunk t)
  simpa using this

/-! ## The claims -/

/-- C1. Round trip: whenever `Parse s` succeeds with components `c`, `c.String()`
is exactly `s`. -/
theorem String_Parse_roundtrip (s : Str) (c : Components)
    (h : Parse s = some (some c, none)) : c.String = s := by
  obtain ⟨_, _, _, _, _, _, _, rest, hs, hsh⟩ := Parse_ok_inv s c h
  have hchunk := SuffixShape_chunk rest c hsh
  rw [hs, ← hchunk]
  simp [Components.String, strings.Join, colon_toList]

theorem String_Parse_roundtrip_witness :
    Parse "arn:aws:s3:::my_corporate_bucket/exampleobject.png".toList
        = some (some
          { ARN := "arn".toList, Partition := "aws".toList, Service := "s3".toList,
            Region := [], AccountID := [], ResourceType := "my_corporate_bucket".toList,
            Resource := "exampleobject.png".toList, ResourceDelimiter := "/".toList }, none) ∧
      Components.String
          { ARN := "arn".toList, Partition := "aws".toList, Service := "s3".toList,
            Region := [], AccountID := [], ResourceType := "my_corporate_bucket".toList,
            Resource := "exampleobject.png".toList, ResourceDelimiter := "/".toList }
        = "arn:aws:s3:::my_corporate_bucket/exampleobject.png".toList :=
  ⟨by decide, String_Parse_roundtrip _ _ (by decide)⟩

/-- C2 at a failing input: `Parse` accepts `"arn:::::\xff"`, and `SupersetOf` of the
result with itself panics in `regexp.MustCompile` (the pattern `\xff` is not valid
UTF-8), the `reflect.DeepEqual` shortcut never being taken; on `arn:aws:s3:::bucket`
the same call returns true. -/
theorem SupersetOf_of_itself_panics :
    (∃ x, Raw.Parse (Raw.ascii "arn:::::" ++ [0xff]) = some (some x, none) ∧
      x.SupersetOf x = none) ∧
    (∃ y, Raw.Parse (Raw.ascii "arn:aws:s3:::bucket") = some (some y, none) ∧
      y.SupersetOf y = some true) :=
  ⟨⟨{ ARN := Raw.ascii "arn", Partition := [], Service := [], Region := [], AccountID := [],
      ResourceType := [], Resource := [0xff], ResourceDelimiter := [] }, by decide, by decide⟩,
   ⟨{ ARN := Raw.ascii "arn", Partition := Raw.ascii "aws", Service := Raw.ascii "s3",
      Region := [], AccountID := [], ResourceType := [], Resource := Raw.ascii "bucket",
      ResourceDelimiter := [] }, by decide, by decide⟩⟩

/-- C3, as stated, fails: no slot of the pattern `arn:aws:s3:::bucket` has a wildcard,
and it is a superset of `arn:aws:s3:::bucket/key`, whose sixth slot neither matches
the pattern's sixth slot as a whole nor equals it. -/
theorem whole_slot_match_fails :
    ∃ p c, Parse "arn:aws:s3:::bucket".toList = some (some p, none) ∧
      Parse "arn:aws:s3:::bucket/key".toList = some (some c, none) ∧
      p.SupersetOf c = some true ∧
      globMatch p.ResourceChunk c.ResourceChunk = false ∧
      (∀ a ∈ slots p, '*' ∉ a ∧ '?' ∉ a) ∧
      c.ResourceChunk ≠ p.ResourceChunk :=
  ⟨{ ARN := "arn".toList, Partition := "aws".toList, Service := "s3".toList, Region := [],
     AccountID := [], ResourceType := [], Resource := "bucket".toList,
     ResourceDelimiter := [] },
   { ARN := "arn".toList, Partition := "aws".toList, Service := "s3".toList, Region := [],
     AccountID := [], ResourceType := "bucket".toList, Resource := "key".toList,
     ResourceDelimiter := "/".toList },
   by decide, by decide, by decide, by decide, by decide, by decide⟩

/-- C3, amended. `p.SupersetOf(c)` returns true only if, in each of the six slots,
some contiguous part `mid` of the candidate slot matches the wildcard pattern of
`p`'s slot as a whole; text before and after `mid` is allowed.  In particular a slot
of `p` without `*` and `?` occurs as a contiguous substring of the slot of `c`. -/
theorem SupersetOf_imp_part_of_slot_matches (p c : Components)
    (h : p.SupersetOf c = some true) :
    List.Forall₂
      (fun a b =>
        (∃ pre mid post, b = pre ++ mid ++ post ∧ globMatch a mid = true) ∧
        ('*' ∉ a → '?' ∉ a → a <:+: b))
      (slots p) (slots c) := by
  obtain ⟨h1, h2, h3, h4, h5, h6⟩ := (SupersetOf_eq_true_iff p c).mp h
  exact List.Forall₂.cons (part_matches_of_matchAnywhere _ _ h1)
    (List.Forall₂.cons (part_matches_of_matchAnywhere _ _ h2)
    (List.Forall₂.cons (part_matches_of_matchAnywhere _ _ h3)
    (List.Forall₂.cons (part_matches_of_matchAnywhere _ _ h4)
    (List.Forall₂.cons (part_matches_of_matchAnywhere _ _ h5)
    (List.Forall₂.cons (part_matches_of_matchAnywhere _ _ h6) List.Forall₂.nil)))))

theorem SupersetOf_imp_part_of_slot_matches_witness :
    Components.SupersetOf
      { ARN := "arn".toList, Partition := "aws".toList, Service := "s3".toList, Region := [],
        AccountID := [], ResourceType := [], Resource := "b?ck*".toList,
        ResourceDelimiter := [] }
      { ARN := "arn".toList, Partition := "aws".toList, Service := "s3".toList, Region := [],
        AccountID := [], ResourceType := "bucket".toList, Resource := "key".toList,
        ResourceDelimiter := "/".toList } = some true ∧
    List.Forall₂
      (fun a b =>
        (∃ pre mid post, b = pre ++ mid ++ post ∧ globMatch a mid = true) ∧
        ('*' ∉ a → '?' ∉ a → a <:+: b))
      (slots
        { ARN := "arn".toList, Partition := "aws".toList, Service := "s3".toList, Region := [],
          AccountID := [], ResourceType := [], Resource := "b?ck*".toList,
          ResourceDelimiter := [] })
      (slots
        { ARN := "arn".toList, Partition := "aws".toList, Service := "s3".toList, Region := [],
          AccountID := [], ResourceType := "bucket".toList, Resource := "key".toList,
          ResourceDelimiter := "/".toList }) :=
  ⟨by decide, SupersetOf_imp_part_of_slot_matches _ _ (by decide)⟩

/-- Sufficiency of a glob match for candidates without a newline: if every slot of
`c` is free of newlines and matches the slot of `p` as a glob, `p.SupersetOf(c)`
returns true. -/
theorem SupersetOf_of_glob_without_newline (p c : Components)
    (h : List.Forall₂ (fun a b => globMatch a b = true ∧ '\n' ∉ b) (slots p) (slots c)) :
    p.SupersetOf c = some true := by
  simp only [slots, List.forall₂_cons, List.forall₂_nil_left_iff, and_true] at h
  obtain ⟨⟨g1, n1⟩, ⟨g2, n2⟩, ⟨g3, n3⟩, ⟨g4, n4⟩, ⟨g5, n5⟩, ⟨g6, n6⟩⟩ := h
  rw [SupersetOf_eq_true_iff]
  exact ⟨matchAnywhere_of_glob _ _ g1 n1, matchAnywhere_of_glob _ _ g2 n2,
    matchAnywhere_of_glob _ _ g3 n3, matchAnywhere_of_glob _ _ g4 n4,
    matchAnywhere_of_glob _ _ g5 n5, matchAnywhere_of_glob _ _ g6 n6⟩

/-- C4 at a failing input: every slot of `":::::a\nb"` matches the slot of the pattern
`":::::a?b"` as a glob (the `?` takes the newline), yet `SupersetOf` returns false,
because the dot compiled from `?` does not match a newline. -/
theorem wildcard_misses_newline :
    ∃ p c, Parse ":::::a?b".toList = some (some p, none) ∧
      Parse ":::::a\nb".toList = some (some c, none) ∧
      globMatch p.ARN c.ARN = true ∧ globMatch p.Partition c.Partition = true ∧
      globMatch p.Service c.Service = true ∧ globMatch p.Region c.Region = true ∧
      globMatch p.AccountID c.AccountID = true ∧
      globMatch p.ResourceChunk c.ResourceChunk = true ∧
      p.SupersetOf c = some false :=
  ⟨{ ARN := [], Partition := [], Service := [], Region := [], AccountID := [],
     ResourceType := [], Resource := "a?b".toList, ResourceDelimiter := [] },
   { ARN := [], Partition := [], Service := [], Region := [], AccountID := [],
     ResourceType := [], Resource := "a\nb".toList, ResourceDelimiter := [] },
   by decide, by decide, by decide, by decide, by decide, by decide, by decide, by decide,
   by decide⟩

/-- C5. For a string without the marker `$\x7b`: `Validate` and `Parse` fail with
`ErrMalformed` exactly when the string has fewer than five `:`; otherwise `Validate`
returns nil and `Parse` succeeds; `ErrVariablesNotSupported` is not returned. -/
theorem malformed_iff_fewer_than_five_colons (s : Str) (hv : ¬ ("$\x7b".toList <:+: s)) :
    (Validate s = some GoError.ErrMalformed ↔ s.count ':' < 5) ∧
    (Parse s = some (none, some GoError.ErrMalformed) ↔ s.count ':' < 5) ∧
    (5 ≤ s.count ':' → Validate s = none ∧ ∃ c, Parse s = some (some c, none)) ∧
    Validate s ≠ some GoError.ErrVariablesNotSupported ∧
    (∀ r, Parse s = some r → r.2 ≠ some GoError.ErrVariablesNotSupported) := by
  have hv' : strings.Contains s "$\x7b".toList = false := (Contains_eq_false_iff _ _).mpr hv
  have hval := Validate_eq s
  rw [hv'] at hval
  rcases Parse_cases s with ⟨h1, _⟩ | ⟨_, hc, hP⟩ | ⟨_, hc, _, _, _, _, _, _, c, _, _, _, _, _, _, hP, _⟩
  · rw [hv'] at h1; exact absurd h1 (by simp)
  · refine ⟨?_, ?_, ?_, ?_, ?_⟩
    · simp [hval, hc]
    · simp [hP, hc]
    · intro h5; omega
    · simp [hval, hc]
    · intro r hr; rw [hP] at hr; cases hr; simp
  · have hc' : ¬ s.count ':' < 5 := by omega
    refine ⟨?_, ?_, ?_, ?_, ?_⟩
    · simp [hval, hc']
    · simp [hP, hc']
    · intro _; exact ⟨by simp [hval, hc'], c, hP⟩
    · simp [hval, hc']
    · intro r hr; rw [hP] at hr; cases hr; simp

theorem malformed_iff_fewer_than_five_colons_witness :
    ¬ ("$\x7b".toList <:+: "arn:partition:service:region:".toList) ∧
    Parse "arn:partition:service:region:".toList = some (none, some GoError.ErrMalformed) :=
  ⟨by decide,
    (malformed_iff_fewer_than_five_colons "arn:partition:service:region:".toList
      (by decide)).2.1.mpr (by decide)⟩

/-- C6. A string that contains `$\x7b` anywhere makes both `Validate` and `Parse` fail
with `ErrVariablesNotSupported`, whatever its number of `:`; a string that does not
contain it never gets that error. -/
theorem variables_rejected_first (s : Str) :
    ("$\x7b".toList <:+: s →
      Validate s = some GoError.ErrVariablesNotSupported ∧
      Parse s = some (none, some GoError.ErrVariablesNotSupported)) ∧
    (¬ ("$\x7b".toList <:+: s) →
      Validate s ≠ some GoError.ErrVariablesNotSupported ∧
      ∀ r, Parse s = some r → r.2 ≠ some GoError.ErrVariablesNotSupported) := by
  constructor
  · intro h
    have hv : strings.Contains s "$\x7b".toList = true := (strings.Contains_iff _ _).mpr h
    exact ⟨by rw [Validate_eq, hv]; rfl, Parse_vars s hv⟩
  · intro h
    have hv : strings.Contains s "$\x7b".toList = false := (Contains_eq_false_iff _ _).mpr h
    refine ⟨?_, ?_⟩
    · rw [Validate_eq, hv]
      by_cases hc : s.count ':' < 5 <;> simp [hc]
    · intro r hr
      rcases Parse_cases s with ⟨h1, _⟩ | ⟨_, _, hP⟩ | ⟨_, _, _, _, _, _, _, _, c, _, _, _, _, _, _, hP, _⟩
      · rw [hv] at h1; exact absurd h1 (by simp)
      · rw [hP] at hr; cases hr; simp
      · rw [hP] at hr; cases hr; simp

/-- C7. Colon priority in the resource suffix: when the text after the fifth `:` is
`t:r` with no `:` in `t` (so `t` ends at the FIRST `:` of the suffix, and may contain
`/`), `Parse` yields `ResourceDelimiter = ":"`, `ResourceType = t`, `Resource = r`. -/
theorem colon_priority_in_suffix (p0 p1 p2 p3 p4 t r : Str)
    (h0 : ':' ∉ p0) (h1 : ':' ∉ p1) (h2 : ':' ∉ p2) (h3 : ':' ∉ p3) (h4 : ':' ∉ p4)
    (ht : ':' ∉ t)
    (hv : ¬ ("$\x7b".toList <:+: p0 ++ ":".toList ++ p1 ++ ":".toList ++ p2 ++ ":".toList ++
      p3 ++ ":".toList ++ p4 ++ ":".toList ++ (t ++ ":".toList ++ r))) :
    Parse (p0 ++ ":".toList ++ p1 ++ ":".toList ++ p2 ++ ":".toList ++
        p3 ++ ":".toList ++ p4 ++ ":".toList ++ (t ++ ":".toList ++ r))
      = some (some { ARN := p0, Partition := p1, Service := p2, Region := p3, AccountID := p4,
                     ResourceType := t, Resource := r, ResourceDelimiter := ":".toList },
              none) := by
  have e : p0 ++ ":".toList ++ p1 ++ ":".toList ++ p2 ++ ":".toList ++
        p3 ++ ":".toList ++ p4 ++ ":".toList ++ (t ++ ":".toList ++ r)
      = p0 ++ ':' :: (p1 ++ ':' :: (p2 ++ ':' :: (p3 ++ ':' :: (p4 ++ ':' :: (t ++ ':' :: r))))) := by
    simp [colon_toList]
  rw [e] at hv ⊢
  exact Parse_colon p0 p1 p2 p3 p4 t r h0 h1 h2 h3 h4 ht ((Contains_eq_false_iff _ _).mpr hv)

theorem colon_priority_in_suffix_witness :
    Parse ("arn".toList ++ ":".toList ++ "aws".toList ++ ":".toList ++ "s3".toList ++ ":".toList ++
        [] ++ ":".toList ++ [] ++ ":".toList ++ ("a/b".toList ++ ":".toList ++ "c:d/e".toList))
      = some (some { ARN := "arn".toList, Partition := "aws".toList, Service := "s3".toList,
                     Region := [], AccountID := [], ResourceType := "a/b".toList,
                     Resource := "c:d/e".toList, ResourceDelimiter := ":".toList }, none) :=
  colon_priority_in_suffix "arn".toList "aws".toList "s3".toList [] [] "a/b".toList "c:d/e".toList
    (by decide) (by decide) (by decide) (by decide) (by decide) (by decide) (by decide)

/-- C8. Slash fallback and bare resource, for a suffix (the text after the fifth `:`)
without `:`. (a) If the suffix is `t/r` with no `/` in `t` (so `t` ends at the FIRST
`/`), `Parse` yields `ResourceDelimiter = "/"`, `ResourceType = t`, `Resource = r`.
(b) If the suffix has no `/` either, `Parse` yields `Resource` = the whole suffix, with
`ResourceType` and `ResourceDelimiter` empty. -/
theorem slash_fallback_and_bare_resource (p0 p1 p2 p3 p4 : Str)
    (h0 : ':' ∉ p0) (h1 : ':' ∉ p1) (h2 : ':' ∉ p2) (h3 : ':' ∉ p3) (h4 : ':' ∉ p4) :
    (∀ t r : Str, ':' ∉ t → '/' ∉ t → ':' ∉ r →
      ¬ ("$\x7b".toList <:+: p0 ++ ":".toList ++ p1 ++ ":".toList ++ p2 ++ ":".toList ++
        p3 ++ ":".toList ++ p4 ++ ":".toList ++ (t ++ "/".toList ++ r)) →
      Parse (p0 ++ ":".toList ++ p1 ++ ":".toList ++ p2 ++ ":".toList ++
          p3 ++ ":".toList ++ p4 ++ ":".toList ++ (t ++ "/".toList ++ r))
        = some (some { ARN := p0, Partition := p1, Service := p2, Region := p3,
                       AccountID := p4, ResourceType := t, Resource := r,
                       ResourceDelimiter := "/".toList }, none)) ∧
    (∀ rest : Str, ':' ∉ rest → '/' ∉ rest →
      ¬ ("$\x7b".toList <:+: p0 ++ ":".toList ++ p1 ++ ":".toList ++ p2 ++ ":".toList ++
        p3 ++ ":".toList ++ p4 ++ ":".toList ++ rest) →
      Parse (p0 ++ ":".toList ++ p1 ++ ":".toList ++ p2 ++ ":".toList ++
          p3 ++ ":".toList ++ p4 ++ ":".toList ++ rest)
        = some (some { ARN := p0, Partition := p1, Service := p2, Region := p3,
                       AccountID := p4, ResourceType := [], Resource := rest,
                       ResourceDelimiter := [] }, none)) := by
  constructor
  · intro t r ht ht' hr hv
    have e : p0 ++ ":".toList ++ p1 ++ ":".toList ++ p2 ++ ":".toList ++
          p3 ++ ":".toList ++ p4 ++ ":".toList ++ (t ++ "/".toList ++ r)
        = p0 ++ ':' :: (p1 ++ ':' :: (p2 ++ ':' :: (p3 ++ ':' :: (p4 ++ ':' :: (t ++ '/' :: r))))) := by
      simp [colon_toList, slash_toList]
    rw [e] at hv ⊢
    exact Parse_slash p0 p1 p2 p3 p4 t r h0 h1 h2 h3 h4 ht ht' hr
      ((Contains_eq_false_iff _ _).mpr hv)
  · intro rest hr hr' hv
    have e : p0 ++ ":".toList ++ p1 ++ ":".toList ++ p2 ++ ":".toList ++
          p3 ++ ":".toList ++ p4 ++ ":".toList ++ rest
        = p0 ++ ':' :: (p1 ++ ':' :: (p2 ++ ':' :: (p3 ++ ':' :: (p4 ++ ':' :: rest)))) := by
      simp [colon_toList]
    rw [e] at hv ⊢
    exact Parse_bare p0 p1 p2 p3 p4 rest h0 h1 h2 h3 h4 hr hr' ((Contains_eq_false_iff _ _).mpr hv)

theorem slash_fallback_and_bare_resource_witness :
    Parse ("arn".toList ++ ":".toList ++ "aws".toList ++ ":".toList ++ "s3".toList ++ ":".toList ++
        [] ++ ":".toList ++ [] ++ ":".toList ++ ("bucket".toList ++ "/".toList ++ "a/b.png".toList))
      = some (some { ARN := "arn".toList, Partition := "aws".toList, Service := "s3".toList,
                     Region := [], AccountID := [], ResourceType := "bucket".toList,
                     Resource := "a/b.png".toList, ResourceDelimiter := "/".toList }, none) ∧
    Parse ("arn".toList ++ ":".toList ++ "aws".toList ++ ":".toList ++ "s3".toList ++ ":".toList ++
        [] ++ ":".toList ++ [] ++ ":".toList ++ "resource".toList)
      = some (some { ARN := "arn".toList, Partition := "aws".toList, Service := "s3".toList,
                     Region := [], AccountID := [], ResourceType := [],
                     Resource := "resource".toList, ResourceDelimiter := [] }, none) :=
  ⟨(slash_fallback_and_bare_resource "arn".toList "aws".toList "s3".toList [] []
      (by decide) (by decide) (by decide) (by decide) (by decide)).1
      "bucket".toList "a/b.png".toList (by decide) (by decide) (by decide) (by decide),
   (slash_fallback_and_bare_resource "arn".toList "aws".toList "s3".toList [] []
      (by decide) (by decide) (by decide) (by decide) (by decide)).2
      "resource".toList (by decide) (by decide) (by decide)⟩

/-- C9. Bounded split: for an accepted input `s`, the five prefix fields contain no
`:`, and `s` is, verbatim, these five fields each followed by `:` and then
`ResourceChunk()`; so the fields are the substrings delimited by the first five `:`
and the chunk is everything after the fifth `:`. -/
theorem bounded_split (s : Str) (c : Components) (h : Parse s = some (some c, none)) :
    ':' ∉ c.ARN ∧ ':' ∉ c.Partition ∧ ':' ∉ c.Service ∧ ':' ∉ c.Region ∧
    ':' ∉ c.AccountID ∧
    s = c.ARN ++ ":".toList ++ c.Partition ++ ":".toList ++ c.Service ++ ":".toList ++
        c.Region ++ ":".toList ++ c.AccountID ++ ":".toList ++ c.ResourceChunk := by
  obtain ⟨_, _, h0, h1, h2, h3, h4, rest, hs, hsh⟩ := Parse_ok_inv s c h
  refine ⟨h0, h1, h2, h3, h4, ?_⟩
  rw [SuffixShape_chunk rest c hsh]
  conv_lhs => rw [hs]
  simp [colon_toList]

theorem bounded_split_witness :
    ':' ∉ "arn".toList ∧
    "arn:aws:rds:region:account-id:db:db-instance-name".toList
      = "arn".toList ++ ":".toList ++ "aws".toList ++ ":".toList ++ "rds".toList ++ ":".toList ++
        "region".toList ++ ":".toList ++ "account-id".toList ++ ":".toList ++
        "db:db-instance-name".toList :=
  have h := bounded_split "arn:aws:rds:region:account-id:db:db-instance-name".toList
    { ARN := "arn".toList, Partition := "aws".toList, Service := "rds".toList,
      Region := "region".toList, AccountID := "account-id".toList,
      ResourceType := "db".toList, Resource := "db-instance-name".toList,
      ResourceDelimiter := ":".toList } (by decide)
  ⟨h.1, h.2.2.2.2.2⟩

/-- C10, as stated, fails: `":::::/foo"` parses to an empty `ResourceType` with the
non-empty `ResourceDelimiter` `"/"`. -/
theorem delimiter_empty_iff_type_empty_fails :
    ∃ c, Parse ":::::/foo".toList = some (some c, none) ∧
      ¬ (c.ResourceDelimiter = [] ↔ c.ResourceType = []) :=
  ⟨{ ARN := [], Partition := [], Service := [], Region := [], AccountID := [],
     ResourceType := [], Resource := "foo".toList, ResourceDelimiter := "/".toList },
   by decide, by decide⟩

/-- C10, amended. For every successfully parsed identifier `c`: if
`ResourceDelimiter` is empty then `ResourceType` is empty, and `ResourceDelimiter` is
one of `""`, `":"`, `"/"`. -/
theorem delimiter_empty_imp_type_empty (s : Str) (c : Components)
    (h : Parse s = some (some c, none)) :
    (c.ResourceDelimiter = [] → c.ResourceType = []) ∧
    (c.ResourceDelimiter = [] ∨ c.ResourceDelimiter = ":".toList ∨
      c.ResourceDelimiter = "/".toList) := by
  obtain ⟨_, _, _, _, _, _, _, rest, _, hsh⟩ := Parse_ok_inv s c h
  rcases hsh with ⟨t, r, _, _, _, _, h3⟩ | ⟨_, t, r, _, _, _, _, h3⟩ | ⟨_, _, h1, _, h3⟩
  · exact ⟨fun e => by rw [h3] at e; simp at e, Or.inr (Or.inl h3)⟩
  · exact ⟨fun e => by rw [h3] at e; simp at e, Or.inr (Or.inr h3)⟩
  · exact ⟨fun _ => h1, Or.inl h3⟩

theorem delimiter_empty_imp_type_empty_witness :
    Parse "arn:partition:service:region:account-id:resource".toList
      = some (some
          { ARN := "arn".toList, Partition := "partition".toList, Service := "service".toList,
            Region := "region".toList, AccountID := "account-id".toList,
            ResourceType := [], Resource := "resource".toList, ResourceDelimiter := [] },
          none) ∧
    ((([] : Str) = [] → ([] : Str) = []) ∧
      (([] : Str) = [] ∨ ([] : Str) = ":".toList ∨ ([] : Str) = "/".toList)) :=
  ⟨by decide,
   delimiter_empty_imp_type_empty "arn:partition:service:region:account-id:resource".toList
    { ARN := "arn".toList, Partition := "partition".toList, Service := "service".toList,
      Region := "region".toList, AccountID := "account-id".toList,
      ResourceType := [], Resource := "resource".toList, ResourceDelimiter := [] }
    (by decide)⟩

/-- C11. `Validate` agrees with `Parse`: `Validate s` is nil exactly when `Parse s`
succeeds; when `Validate` fails, `Parse` fails with the same error and returns nil
components; and `Parse` never returns components together with an error. -/
theorem Validate_agrees_with_Parse (s : Str) :
    (Validate s = none ↔ ∃ c, Parse s = some (some c, none)) ∧
    (∀ e, Validate s = some e ↔ Parse s = some (none, some e)) ∧
    (∀ c e, Parse s ≠ some (some c, some e)) := by
  have hval := Validate_eq s
  rcases Parse_cases s with ⟨hv, hP⟩ | ⟨hv, hc, hP⟩ |
    ⟨hv, hc, _, _, _, _, _, _, c, _, _, _, _, _, _, hP, _⟩
  · rw [hv] at hval
    simp only [if_true] at hval
    refine ⟨?_, ?_, ?_⟩
    · simp [hval, hP]
    · intro e; simp [hval, hP]
    · intro c e; simp [hP]
  · rw [hv] at hval
    simp only [hc, if_true, Bool.false_eq_true, if_false] at hval
    refine ⟨?_, ?_, ?_⟩
    · simp [hval, hP]
    · intro e; simp [hval, hP]
    · intro c e; simp [hP]
  · have hc' : ¬ s.count ':' < 5 := by omega
    rw [hv] at hval
    simp only [hc', Bool.false_eq_true, if_false] at hval
    refine ⟨?_, ?_, ?_⟩
    · simp [hval, hP]
    · intro e; simp [hval, hP]
    · intro c e; simp [hP]

/-- C12 at a failing input: `Parse` accepts `":::::\xff"` and `":::::\xff/x"`, the two
results have equal prefix fields and the second suffix starts with the first, and
`SupersetOf` panics in `regexp.MustCompile` instead of returning true. -/
theorem prefix_extension_panics :
    ∃ a b, Raw.Parse (Raw.ascii ":::::" ++ [0xff]) = some (some a, none) ∧
      Raw.Parse (Raw.ascii ":::::" ++ [0xff] ++ Raw.ascii "/x") = some (some b, none) ∧
      a.ARN = b.ARN ∧ a.Partition = b.Partition ∧ a.Service = b.Service ∧
      a.Region = b.Region ∧ a.AccountID = b.AccountID ∧
      a.ResourceChunk <+: b.ResourceChunk ∧
      a.SupersetOf b = none :=
  ⟨{ ARN := [], Partition := [], Service := [], Region := [], AccountID := [],
     ResourceType := [], Resource := [0xff], ResourceDelimiter := [] },
   { ARN := [], Partition := [], Service := [], Region := [], AccountID := [],
     ResourceType := [0xff], Resource := Raw.ascii "x", ResourceDelimiter := Raw.ascii "/" },
   by decide, by decide, rfl, rfl, rfl, rfl, rfl, by decide, by decide⟩

/-- C13. Literal characters are matched literally: if `p.SupersetOf(c)` returns true
then, in each of the six slots, the characters of `p`'s slot other than `*` and `?`
occur in the same order as a subsequence of `c`'s slot.  So a pattern whose suffix
contains `:` is not a superset of a candidate whose suffix contains no `:`, as for
the suffixes `company:*/*` and `company/mesos-x/*`. -/
theorem literal_characters_matched_literally :
    (∀ p c : Components, p.SupersetOf c = some true →
      List.Forall₂ (fun a b => List.Sublist (literalChars a) b) (slots p) (slots c)) ∧
    (∀ p c : Components, ':' ∈ p.ResourceChunk → ':' ∉ c.ResourceChunk →
      p.SupersetOf c = some false) ∧
    (∃ p c, Parse "arn:aws:s3:::company:*/*".toList = some (some p, none) ∧
      Parse "arn:aws:s3:::company/mesos-x/*".toList = some (some c, none) ∧
      p.SupersetOf c = some false) := by
  have key : ∀ p c : Components, p.SupersetOf c = some true →
      List.Forall₂ (fun a b => List.Sublist (literalChars a) b) (slots p) (slots c) := by
    intro p c h
    obtain ⟨h1, h2, h3, h4, h5, h6⟩ := (SupersetOf_eq_true_iff p c).mp h
    exact List.Forall₂.cons (literalChars_sublist_of_matchAnywhere _ _ h1)
      (List.Forall₂.cons (literalChars_sublist_of_matchAnywhere _ _ h2)
      (List.Forall₂.cons (literalChars_sublist_of_matchAnywhere _ _ h3)
      (List.Forall₂.cons (literalChars_sublist_of_matchAnywhere _ _ h4)
      (List.Forall₂.cons (literalChars_sublist_of_matchAnywhere _ _ h5)
      (List.Forall₂.cons (literalChars_sublist_of_matchAnywhere _ _ h6) List.Forall₂.nil)))))
  refine ⟨key, ?_, ?_⟩
  · intro p c hp hc
    apply SupersetOf_eq_false_of_ne_true
    intro h
    obtain ⟨_, _, _, _, _, h6⟩ := (SupersetOf_eq_true_iff p c).mp h
    have hsub := literalChars_sublist_of_matchAnywhere _ _ h6
    exact hc (hsub.subset (mem_literalChars ':' _ hp (by decide) (by decide)))
  · exact ⟨{ ARN := "arn".toList, Partition := "aws".toList, Service := "s3".toList,
             Region := [], AccountID := [], ResourceType := "company".toList,
             Resource := "*/*".toList, ResourceDelimiter := ":".toList },
           { ARN := "arn".toList, Partition := "aws".toList, Service := "s3".toList,
             Region := [], AccountID := [], ResourceType := "company".toList,
             Resource := "mesos-x/*".toList, ResourceDelimiter := "/".toList },
           by decide, by decide, by decide⟩

/-- C14. `SupersetOf` is not symmetric: `arn:aws:s3:::bucket.name.*` is a superset of
`arn:aws:s3:::bucket.name.company/path/*`, and not the other way round. -/
theorem SupersetOf_not_symmetric :
    ∃ a b, Parse "arn:aws:s3:::bucket.name.*".toList = some (some a, none) ∧
      Parse "arn:aws:s3:::bucket.name.company/path/*".toList = some (some b, none) ∧
      a.SupersetOf b = some true ∧ b.SupersetOf a = some false :=
  ⟨{ ARN := "arn".toList, Partition := "aws".toList, Service := "s3".toList, Region := [],
     AccountID := [], ResourceType := [], Resource := "bucket.name.*".toList,
     ResourceDelimiter := [] },
   { ARN := "arn".toList, Partition := "aws".toList, Service := "s3".toList, Region := [],
     AccountID := [], ResourceType := "bucket.name.company".toList,
     Resource := "path/*".toList, ResourceDelimiter := "/".toList },
   by decide, by decide, by decide, by decide⟩

/-- C15, as stated, fails: `bucket/?` is a superset of `bucket/*`, which is a
superset of `bucket/`, but `bucket/?` is not a superset of `bucket/`. -/
theorem SupersetOf_not_transitive :
    ∃ a b c, Parse "arn:aws:s3:::bucket/?".toList = some (some a, none) ∧
      Parse "arn:aws:s3:::bucket/*".toList = some (some b, none) ∧
      Parse "arn:aws:s3:::bucket/".toList = some (some c, none) ∧
      a.SupersetOf b = some true ∧ b.SupersetOf c = some true ∧
      a.SupersetOf c = some false :=
  ⟨{ ARN := "arn".toList, Partition := "aws".toList, Service := "s3".toList, Region := [],
     AccountID := [], ResourceType := "bucket".toList, Resource := "?".toList,
     ResourceDelimiter := "/".toList },
   { ARN := "arn".toList, Partition := "aws".toList, Service := "s3".toList, Region := [],
     AccountID := [], ResourceType := "bucket".toList, Resource := "*".toList,
     ResourceDelimiter := "/".toList },
   { ARN := "arn".toList, Partition := "aws".toList, Service := "s3".toList, Region := [],
     AccountID := [], ResourceType := "bucket".toList, Resource := [],
     ResourceDelimiter := "/".toList },
   by decide, by decide, by decide, by decide, by decide, by decide⟩

/-- C15, amended. `SupersetOf` is transitive except where a `?` of `a` has to take a
`*` of `b`.  If in each of the six slots the pattern of `a` matches some contiguous
part of the slot of `b` with no `?` standing against a `*`, then `a.SupersetOf(b)`
returns true, and `b.SupersetOf(c)` implies `a.SupersetOf(c)`.  In particular, if
in each slot `a` has no `?` or `b` has no `*`, then `a.SupersetOf(b)` and
`b.SupersetOf(c)` imply `a.SupersetOf(c)`. -/
theorem SupersetOf_transitive_unless_quest_takes_star :
    (∀ a b c : Components,
      List.Forall₂
        (fun x y => ∃ pre mid post, y = pre ++ mid ++ post ∧ matchAvoidingStar x mid = true)
        (slots a) (slots b) →
      a.SupersetOf b = some true ∧
      (b.SupersetOf c = some true → a.SupersetOf c = some true)) ∧
    (∀ a b c : Components,
      List.Forall₂ (fun x y => '?' ∉ x ∨ '*' ∉ y) (slots a) (slots b) →
      a.SupersetOf b = some true → b.SupersetOf c = some true →
      a.SupersetOf c = some true) := by
  have key : ∀ a b c : Components,
      List.Forall₂
        (fun x y => ∃ pre mid post, y = pre ++ mid ++ post ∧ matchAvoidingStar x mid = true)
        (slots a) (slots b) →
      a.SupersetOf b = some true ∧
      (b.SupersetOf c = some true → a.SupersetOf c = some true) := by
    intro a b c h
    simp only [slots, List.forall₂_cons, List.forall₂_nil_left_iff, and_true] at h
    obtain ⟨g1, g2, g3, g4, g5, g6⟩ := h
    refine ⟨?_, ?_⟩
    · rw [SupersetOf_eq_true_iff]
      exact ⟨matchAnywhere_of_avoiding _ _ g1, matchAnywhere_of_avoiding _ _ g2,
        matchAnywhere_of_avoiding _ _ g3, matchAnywhere_of_avoiding _ _ g4,
        matchAnywhere_of_avoiding _ _ g5, matchAnywhere_of_avoiding _ _ g6⟩
    · intro hbc
      obtain ⟨q1, q2, q3, q4, q5, q6⟩ := (SupersetOf_eq_true_iff b c).mp hbc
      rw [SupersetOf_eq_true_iff]
      exact ⟨matchAnywhere_through _ _ _ g1 q1, matchAnywhere_through _ _ _ g2 q2,
        matchAnywhere_through _ _ _ g3 q3, matchAnywhere_through _ _ _ g4 q4,
        matchAnywhere_through _ _ _ g5 q5, matchAnywhere_through _ _ _ g6 q6⟩
  refine ⟨key, ?_⟩
  intro a b c hd hab hbc
  simp only [slots, List.forall₂_cons, List.forall₂_nil_left_iff, and_true] at hd
  obtain ⟨d1, d2, d3, d4, d5, d6⟩ := hd
  obtain ⟨p1, p2, p3, p4, p5, p6⟩ := (SupersetOf_eq_true_iff a b).mp hab
  refine (key a b c ?_).2 hbc
  simp only [slots, List.forall₂_cons, List.forall₂_nil_left_iff, and_true]
  exact ⟨avoiding_of_matchAnywhere _ _ d1 p1, avoiding_of_matchAnywhere _ _ d2 p2,
    avoiding_of_matchAnywhere _ _ d3 p3, avoiding_of_matchAnywhere _ _ d4 p4,
    avoiding_of_matchAnywhere _ _ d5 p5, avoiding_of_matchAnywhere _ _ d6 p6⟩

theorem SupersetOf_transitive_unless_quest_takes_star_witness :
    Components.SupersetOf
      { ARN := "arn".toList, Partition := "aws".toList, Service := "s3".toList, Region := [],
        AccountID := [], ResourceType := "bucket".toList, Resource := "*".toList,
        ResourceDelimiter := "/".toList }
      { ARN := "arn".toList, Partition := "aws".toList, Service := "s3".toList, Region := [],
        AccountID := [], ResourceType := "bucket".toList, Resource := "logs/2024/x".toList,
        ResourceDelimiter := "/".toList } = some true ∧
    Components.SupersetOf
      { ARN := "arn".toList, Partition := "aws".toList, Service := "s3".toList, Region := [],
        AccountID := [], ResourceType := "b?cket".toList, Resource := "*".toList,
        ResourceDelimiter := "/".toList }
      { ARN := "arn".toList, Partition := "aws".toList, Service := "s3".toList, Region := [],
        AccountID := [], ResourceType := "bucket".toList, Resource := "logs/x".toList,
        ResourceDelimiter := "/".toList } = some true :=
  ⟨SupersetOf_transitive_unless_quest_takes_star.2 _
    { ARN := "arn".toList, Partition := "aws".toList, Service := "s3".toList, Region := [],
      AccountID := [], ResourceType := "bucket".toList, Resource := "logs/*/x".toList,
      ResourceDelimiter := "/".toList } _
    (List.Forall₂.cons (by decide) (List.Forall₂.cons (by decide) (List.Forall₂.cons (by decide)
      (List.Forall₂.cons (by decide) (List.Forall₂.cons (by decide)
      (List.Forall₂.cons (by decide) List.Forall₂.nil))))))
    (by decide) (by decide),
   (SupersetOf_transitive_unless_quest_takes_star.1 _
    { ARN := "arn".toList, Partition := "aws".toList, Service := "s3".toList, Region := [],
      AccountID := [], ResourceType := "bucket".toList, Resource := "*/x".toList,
      ResourceDelimiter := "/".toList } _
    (List.Forall₂.cons ⟨[], "arn".toList, [], by decide, by decide⟩
      (List.Forall₂.cons ⟨[], "aws".toList, [], by decide, by decide⟩
      (List.Forall₂.cons ⟨[], "s3".toList, [], by decide, by decide⟩
      (List.Forall₂.cons ⟨[], [], [], by decide, by decide⟩
      (List.Forall₂.cons ⟨[], [], [], by decide, by decide⟩
      (List.Forall₂.cons ⟨[], "bucket/*/x".toList, [], by decide, by decide⟩
        List.Forall₂.nil))))))).2 (by decide)⟩

/-- C16, as stated, fails: `":::::"` and `":::::/"` are accepted and their `Resource`
is empty. -/
theorem resource_may_be_empty :
    (∃ c, Parse ":::::".toList = some (some c, none) ∧ c.Resource = []) ∧
    (∃ c, Parse ":::::/".toList = some (some c, none) ∧ c.Resource = []) :=
  ⟨⟨{ ARN := [], Partition := [], Service := [], Region := [], AccountID := [],
      ResourceType := [], Resource := [], ResourceDelimiter := [] }, by decide, rfl⟩,
   ⟨{ ARN := [], Partition := [], Service := [], Region := [], AccountID := [],
      ResourceType := [], Resource := [], ResourceDelimiter := "/".toList }, by decide, rfl⟩⟩

/-- C16, amended. For every accepted input, written as five `:`-free fields each
followed by `:` and then the suffix `rest`: the `Resource` field of the result is
empty exactly when nothing follows the first delimiter of the suffix, that is when
the suffix is empty, or its first `:` is its last character, or it has no `:` and
its first `/` is its last character.  In every other case `Resource` is
non-empty. -/
theorem resource_empty_iff_nothing_after_first_delimiter (p0 p1 p2 p3 p4 rest : Str)
    (h0 : ':' ∉ p0) (h1 : ':' ∉ p1) (h2 : ':' ∉ p2) (h3 : ':' ∉ p3) (h4 : ':' ∉ p4)
    (hv : ¬ ("$\x7b".toList <:+: p0 ++ ":".toList ++ p1 ++ ":".toList ++ p2 ++ ":".toList ++
      p3 ++ ":".toList ++ p4 ++ ":".toList ++ rest)) :
    ∃ c, Parse (p0 ++ ":".toList ++ p1 ++ ":".toList ++ p2 ++ ":".toList ++
        p3 ++ ":".toList ++ p4 ++ ":".toList ++ rest) = some (some c, none) ∧
      (c.Resource = [] ↔
        rest = [] ∨ (∃ t, ':' ∉ t ∧ rest = t ++ ":".toList) ∨
        (∃ t, ':' ∉ t ∧ '/' ∉ t ∧ rest = t ++ "/".toList)) := by
  have e : p0 ++ ":".toList ++ p1 ++ ":".toList ++ p2 ++ ":".toList ++
        p3 ++ ":".toList ++ p4 ++ ":".toList ++ rest
      = p0 ++ ':' :: (p1 ++ ':' :: (p2 ++ ':' :: (p3 ++ ':' :: (p4 ++ ':' :: rest)))) := by
    simp [colon_toList]
  rw [e] at hv ⊢
  obtain ⟨c, hP, _, _, _, _, _, hsh⟩ :=
    Parse_six p0 p1 p2 p3 p4 rest h0 h1 h2 h3 h4 ((Contains_eq_false_iff _ _).mpr hv)
  exact ⟨c, hP, by rw [colon_toList, slash_toList]; exact SuffixShape_resource_empty_iff rest c hsh⟩

theorem resource_empty_iff_nothing_after_first_delimiter_witness :
    (∃ c, Parse ("arn".toList ++ ":".toList ++ "aws".toList ++ ":".toList ++ "s3".toList ++
          ":".toList ++ [] ++ ":".toList ++ [] ++ ":".toList ++ "a/b/".toList)
        = some (some c, none) ∧
      (c.Resource = [] ↔
        "a/b/".toList = [] ∨ (∃ t, ':' ∉ t ∧ "a/b/".toList = t ++ ":".toList) ∨
        (∃ t, ':' ∉ t ∧ '/' ∉ t ∧ "a/b/".toList = t ++ "/".toList))) ∧
    Parse "arn:aws:s3:::a/b/".toList
      = some (some { ARN := "arn".toList, Partition := "aws".toList, Service := "s3".toList,
                     Region := [], AccountID := [], ResourceType := "a".toList,
                     Resource := "b/".toList, ResourceDelimiter := "/".toList }, none) :=
  ⟨resource_empty_iff_nothing_after_first_delimiter "arn".toList "aws".toList "s3".toList
      [] [] "a/b/".toList (by decide) (by decide) (by decide) (by decide) (by decide)
      (by decide),
   by decide⟩

/-- C17. Pattern compilation is a character-by-character map: for every string `s`,
`toRegExp(s)` compiles and its source text is the concatenation, over the characters
of `s` in order, of `.*` for `*`, `.` for `?`, a backslash and the character for
every other regex metacharacter, and the character itself otherwise; a backslash
before `*` or `?` in `s` does not disturb this.  `foo-bar/?/(main.dir/*` gives
`foo-bar/./\(main\.dir/.*`. -/
theorem toRegExp_source_is_charwise :
    (∀ s : Str, (toRegExp s).map regexp.Regexp.String = some (specSource s)) ∧
    (toRegExp "foo-bar/?/(main.dir/*".toList).map regexp.Regexp.String
      = some "foo-bar/./\\(main\\.dir/.*".toList ∧
    (toRegExp "a\\*b\\?".toList).map regexp.Regexp.String
      = some "a\\\\.*b\\\\.".toList := by
  refine ⟨?_, by decide, by decide⟩
  intro s
  rw [toRegExp_eq, ← sourceOf_eq_spec]
  rfl

/-- C18. The comparison depends only on the five prefix fields and the flattened
suffix: if `p`, `p'` agree on them, and `c`, `c'` agree on them, then
`p.SupersetOf(c)` and `p'.SupersetOf(c')` are the same, however the suffixes are
divided into type, delimiter and resource. -/
theorem SupersetOf_depends_on_flattened_suffix (p p' c c' : Components)
    (hp1 : p.ARN = p'.ARN) (hp2 : p.Partition = p'.Partition) (hp3 : p.Service = p'.Service)
    (hp4 : p.Region = p'.Region) (hp5 : p.AccountID = p'.AccountID)
    (hp6 : p.ResourceChunk = p'.ResourceChunk)
    (hc1 : c.ARN = c'.ARN) (hc2 : c.Partition = c'.Partition) (hc3 : c.Service = c'.Service)
    (hc4 : c.Region = c'.Region) (hc5 : c.AccountID = c'.AccountID)
    (hc6 : c.ResourceChunk = c'.ResourceChunk) :
    p.SupersetOf c = p'.SupersetOf c' := by
  rw [SupersetOf_eq, SupersetOf_eq]
  simp only [pairs, hp1, hp2, hp3, hp4, hp5, hp6, hc1, hc2, hc3, hc4, hc5, hc6]

theorem SupersetOf_depends_on_flattened_suffix_witness :
    Components.SupersetOf
      { ARN := [], Partition := [], Service := [], Region := [], AccountID := [],
        ResourceType := "a".toList, Resource := "b*".toList, ResourceDelimiter := "/".toList }
      { ARN := [], Partition := [], Service := [], Region := [], AccountID := [],
        ResourceType := "a".toList, Resource := "b*".toList, ResourceDelimiter := "/".toList }
    = Components.SupersetOf
      { ARN := [], Partition := [], Service := [], Region := [], AccountID := [],
        ResourceType := [], Resource := "a/b*".toList, ResourceDelimiter := [] }
      { ARN := [], Partition := [], Service := [], Region := [], AccountID := [],
        ResourceType := "a/".toList, Resource := "*".toList, ResourceDelimiter := "b".toList } :=
  SupersetOf_depends_on_flattened_suffix _ _ _ _ rfl rfl rfl rfl rfl (by decide)
    rfl rfl rfl rfl rfl (by decide)

/-- C19. `Parse` is a left inverse of `String` on parser-normal-form values, and
every value a successful `Parse` returns is in parser-normal form. -/
theorem Parse_String_on_normal_form :
    (∀ c : Components, NormalForm c → Parse c.String = some (some c, none)) ∧
    (∀ (s : Str) (c : Components), Parse s = some (some c, none) → NormalForm c) := by
  constructor
  · intro c hn
    obtain ⟨⟨h0, h1, h2, h3, h4⟩, hv, hshape⟩ := hn
    have hS : ∀ c : Components, c.String = c.ARN ++ ':' :: (c.Partition ++ ':' ::
        (c.Service ++ ':' :: (c.Region ++ ':' :: (c.AccountID ++ ':' :: c.ResourceChunk)))) := by
      intro c; simp [Components.String, strings.Join, colon_toList]
    have hv' := (Contains_eq_false_iff _ _).mpr hv
    rw [hS] at hv' ⊢
    obtain ⟨a0, a1, a2, a3, a4, ty, re, de⟩ := c
    simp only [Components.ResourceChunk] at hv' ⊢
    simp only at h0 h1 h2 h3 h4 hshape
    rcases hshape with ⟨hd, ht⟩ | ⟨hd, ht, ht', hr⟩ | ⟨hd, ht, hr, hr'⟩
    · subst hd
      have e : ty ++ ":".toList ++ re = ty ++ ':' :: re := by simp [colon_toList]
      rw [e] at hv' ⊢
      exact Parse_colon a0 a1 a2 a3 a4 ty re h0 h1 h2 h3 h4 ht hv'
    · subst hd
      have e : ty ++ "/".toList ++ re = ty ++ '/' :: re := by simp [slash_toList]
      rw [e] at hv' ⊢
      exact Parse_slash a0 a1 a2 a3 a4 ty re h0 h1 h2 h3 h4 ht ht' hr hv'
    · subst hd; subst ht
      have e : ([] : Str) ++ [] ++ re = re := by simp
      rw [e] at hv' ⊢
      exact Parse_bare a0 a1 a2 a3 a4 re h0 h1 h2 h3 h4 hr hr' hv'
  · intro s c h
    have hstr := String_of_Parse_ok s c h
    obtain ⟨hv, _, h0, h1, h2, h3, h4, rest, _, hsh⟩ := Parse_ok_inv s c h
    refine ⟨⟨h0, h1, h2, h3, h4⟩, ?_, ?_⟩
    · rw [hstr]; exact (Contains_eq_false_iff _ _).mp hv
    · rcases hsh with ⟨t, r, ht, _, e1, _, e3⟩ | ⟨hc, t, r, ht, e, e1, e2, e3⟩ |
        ⟨hc, hs, e1, e2, e3⟩
      · exact Or.inl ⟨by rw [e3]; rfl, by rw [e1]; exact ht⟩
      · refine Or.inr (Or.inl ⟨by rw [e3]; rfl, ?_, by rw [e1]; exact ht, ?_⟩)
        · rw [e1]; exact fun hm => hc (by rw [e]; simp [hm])
        · rw [e2]; exact fun hm => hc (by rw [e]; simp [hm])
      · exact Or.inr (Or.inr ⟨e3, e1, by rw [e2]; exact hc, by rw [e2]; exact hs⟩)

/-- C20. `Parse` is total and never indexes out of range: every call returns either
an error with nil components or components with a nil error; when `validate` passes,
`pieces` has exactly six elements; and when the sixth piece contains `:` (resp. `/`)
the two-way split has exactly two parts. -/
theorem Parse_total_and_in_range :
    (∀ s : Str, (∃ e, Parse s = some (none, some e)) ∨ (∃ c, Parse s = some (some c, none))) ∧
    (∀ s : Str, validate s (strings.SplitN s ":".toList 6) = none →
      (strings.SplitN s ":".toList 6).length = 6) ∧
    (∀ x : Str, 0 < strings.Count x ":".toList → (strings.SplitN x ":".toList 2).length = 2) ∧
    (∀ x : Str, strings.Count x "/".toList ≠ 0 → (strings.SplitN x "/".toList 2).length = 2) := by
  refine ⟨?_, ?_, ?_, ?_⟩
  · intro s
    rcases Parse_cases s with ⟨_, hP⟩ | ⟨_, _, hP⟩ |
      ⟨_, _, _, _, _, _, _, _, c, _, _, _, _, _, _, hP, _⟩
    · exact Or.inl ⟨_, hP⟩
    · exact Or.inl ⟨_, hP⟩
    · exact Or.inr ⟨c, hP⟩
  · intro s h
    have hl : (strings.SplitN s ":".toList 6).length = min 6 (s.count ':' + 1) := by
      unfold strings.SplitN
      rw [colon_toList, strings.length_splitLoop]
    simp only [validate] at h
    split at h
    · exact Option.noConfusion h
    · split at h
      · exact Option.noConfusion h
      · omega
  · intro x h
    rw [colon_toList, strings.Count_singleton_eq] at h
    unfold strings.SplitN
    rw [colon_toList, strings.length_splitLoop]
    omega
  · intro x h
    rw [slash_toList, strings.Count_singleton_eq] at h
    unfold strings.SplitN
    rw [slash_toList, strings.length_splitLoop]
    omega

end Awsarn
